import Mathlib

/-!
# Divide-and-conquer minimum and maximum (`DAA/minmaxelements.c++`)

A shallow embedding of the recursive procedure `minmax` and of the driver
`main`, followed by the properties established about them.

Modelling conventions.

* Indices are values of the 32-bit type `int`.  The sum `low + high` of
  line 23 is reduced to 32 bits (`wrapInt32`, `mid32`) before it is halved;
  C++ integer division truncates toward zero, hence `Int.tdiv`.  The
  expressions `high - 1` and `mid + 1` cannot leave the range of `int` for
  index values and are left as they are.
* With the wrapped sum the recursion need not terminate, so the procedure is
  defined by recursion on a fuel that bounds the nesting of calls.  A call
  that yields `Fault.outOfFuel` for every fuel is a call that never returns.
* The array behind `int* a` is a `List Int`; it is threaded through every
  call and returned, so that "the array is not modified" is a statement
  about the returned array.
* The reference parameters `int& min, int& max` are two variables distinct
  from each other and from the array cells (as in the call made by `main`).
  A variable that has not been assigned yet holds `none`.
* One run records, next to its result, the indices it dereferenced, the
  base-case ranges it reached, the comparisons between element values it
  made and the depth of its recursion.
* The driver reads its ten cells with `cin >>`: a token outside the range of
  `int` stores the nearest bound and puts the stream in the failed state; a
  missing token stores `0` and fails the stream; once the stream has failed
  the remaining cells are left unassigned.
-/

namespace MinMax

/-- Ways in which a run has no result: a dereference outside the array, a
read of a variable never assigned, or a recursion nested deeper than the
fuel supplied. -/
inductive Fault where
  | outOfBounds
  | uninitialised
  | outOfFuel
deriving DecidableEq, Repr

/-- The two output variables `min` and `max`; `none` while unassigned. -/
structure Outs where
  min : Option Int
  max : Option Int
deriving DecidableEq, Repr

/-- The expression `a[i]` read as an rvalue. -/
def readAt (a : List Int) (i : Int) : Except Fault Int :=
  if 0 ≤ i then
    match a[i.toNat]? with
    | some v => .ok v
    | none => .error .outOfBounds
  else .error .outOfBounds

/-- Reading an `int` variable. -/
def readVar : Option Int → Except Fault Int
  | some v => .ok v
  | none => .error .uninitialised

/-- The midpoint `(low + high) / 2` over the mathematical integers, with the
division truncating toward zero: the value against which the 32-bit
computation `mid32` is compared. -/
def mid (low high : Int) : Int := Int.tdiv (low + high) 2

/-- A mathematical integer reduced to the range of a 32-bit two-complement
`int`. -/
def wrapInt32 (x : Int) : Int := (x + 2 ^ 31) % 2 ^ 32 - 2 ^ 31

/-- The expression `(low + high) / 2` with the sum computed in 32-bit `int`
arithmetic. -/
def mid32 (low high : Int) : Int := Int.tdiv (wrapInt32 (low + high)) 2

/-- What one returning call of `minmax` leaves behind: the array and the
output variables after the call, and the record of the run. -/
structure Run where
  mem : List Int
  out : Outs
  reads : List Int
  leaves : List (Int × Int)
  comparisons : Nat
  depth : Nat
deriving Repr

/-- The procedure `minmax(a, low, high, min, max)`, with the record of the
run.  The field `reads` lists the indices dereferenced in program order (the
operands of `a[low] < a[high]` from left to right), `leaves` the base-case
ranges reached from left to right, `comparisons` counts `a[low] < a[high]`,
`max < max1` and `min > min1`, and `depth` is `0` for a base case and one
more than the deeper recursive call otherwise. -/
def minmaxRun : Nat → List Int → Int → Int → Outs → Except Fault Run
  | 0, _, _, _, _ => .error .outOfFuel
  | fuel + 1, a, low, high, out =>
    if low = high then do
      -- max = min = a[low];
      let v ← readAt a low
      pure { mem := a, out := { min := some v, max := some v },
             reads := [low], leaves := [(low, high)], comparisons := 0, depth := 0 }
    else if low = high - 1 then do
      let x ← readAt a low
      let y ← readAt a high
      if x < y then do
        let v ← readAt a low
        let w ← readAt a high
        pure { mem := a, out := { min := some v, max := some w },
               reads := [low, high, low, high], leaves := [(low, high)],
               comparisons := 1, depth := 0 }
      else do
        let v ← readAt a high
        let w ← readAt a low
        pure { mem := a, out := { min := some v, max := some w },
               reads := [low, high, high, low], leaves := [(low, high)],
               comparisons := 1, depth := 0 }
    else do
      -- int mid = (low + high) / 2;
      let m := mid32 low high
      -- minmax(a, low, mid, min, max);
      let r1 ← minmaxRun fuel a low m out
      -- int min1, max1;  minmax(a, mid + 1, high, min1, max1);
      let r2 ← minmaxRun fuel r1.mem (m + 1) high { min := none, max := none }
      -- if (max < max1) max = max1;
      let mx ← readVar r1.out.max
      let mx1 ← readVar r2.out.max
      let o3 : Outs := if mx < mx1 then { r1.out with max := some mx1 } else r1.out
      -- if (min > min1) min = min1;
      let mn ← readVar o3.min
      let mn1 ← readVar r2.out.min
      let o4 : Outs := if mn > mn1 then { o3 with min := some mn1 } else o3
      pure { mem := r2.mem, out := o4,
             reads := r1.reads ++ r2.reads, leaves := r1.leaves ++ r2.leaves,
             comparisons := r1.comparisons + r2.comparisons + 2,
             depth := 1 + max r1.depth r2.depth }

/-- The procedure `minmax(a, low, high, min, max)`: the array and the two
output variables after the call. -/
def minmax (fuel : Nat) (a : List Int) (low high : Int) (out : Outs) :
    Except Fault (List Int × Outs) :=
  match minmaxRun fuel a low high out with
  | .ok r => .ok (r.mem, r.out)
  | .error e => .error e

/-- The elements `a[low], ..., a[high]` of the array, in index order. -/
def slice (a : List Int) (low high : Int) : List Int :=
  (a.drop low.toNat).take ((high - low).toNat + 1)

/-- Reference minimum: a left-to-right linear scan keeping the least value
seen so far (the brute-force scan of the specification). -/
def scanMin : List Int → Option Int
  | [] => none
  | x :: xs => some (xs.foldl min x)

/-- Reference maximum: a left-to-right linear scan keeping the greatest value
seen so far (the brute-force scan of the specification). -/
def scanMax : List Int → Option Int
  | [] => none
  | x :: xs => some (xs.foldl max x)

/-- The indices `low, low + 1, ..., high` in increasing order. -/
def indexRange (low high : Int) : List Int :=
  (List.range (high + 1 - low).toNat).map (fun (k : Nat) => low + (k : Int))

/-- An array of `2^30 + 4` cells, all zero. -/
@[irreducible]
def hugeArray : List Int := List.replicate (2 ^ 30 + 4) 0

/-- What a returning run on the range `[low, high]` of `a` leaves behind: the
array unchanged, the reference scans of `a[low..high]` in the outputs, the
indices of the range as the indices read, base-case ranges that enumerate
the range, and the bounds on the comparisons made and on the depth. -/
structure RunSpec (a : List Int) (low high : Int) (r : Run) : Prop where
  mem_eq : r.mem = a
  out_eq : ∃ mn mx, scanMin (slice a low high) = some mn ∧
    scanMax (slice a low high) = some mx ∧ r.out = { min := some mn, max := some mx }
  reads_iff : ∀ i, i ∈ r.reads ↔ low ≤ i ∧ i ≤ high
  leaves_flat : r.leaves.flatMap (fun p => indexRange p.1 p.2) = indexRange low high
  leaves_base : ∀ p ∈ r.leaves, p.1 = p.2 ∨ p.1 = p.2 - 1
  cmp_single : low = high → r.comparisons = 0
  cmp_bound : low < high → 3 * (r.comparisons : Int) + 6 ≤ 5 * (high - low + 1)
  cmp_pow : ∀ k : Nat, 1 ≤ k → high - low + 1 = 2 ^ k →
    2 * r.comparisons + 4 = 3 * 2 ^ k
  depth_base : high ≤ low + 1 → r.depth = 0
  depth_lt : low < high → (2 : Int) ^ r.depth < high - low + 1

/-! ## The driver -/

/-- Greatest value of type `int`. -/
def INT_MAX : Int := 2 ^ 31 - 1

/-- Least value of type `int`. -/
def INT_MIN : Int := -(2 ^ 31)

/-- The loop `for (i = 0; i < n; i++) cin >> a[i]` on the integers found on
the input stream; the flag tells whether the stream has already failed.  The
result lists the cells of `a`, `none` for a cell left unassigned. -/
def readCells : Nat → List Int → Bool → List (Option Int)
  | 0, _, _ => []
  | n + 1, toks, true => none :: readCells n toks true
  | n + 1, [], false => some 0 :: readCells n [] true
  | n + 1, t :: ts, false =>
    if INT_MAX < t then some INT_MAX :: readCells n ts true
    else if t < INT_MIN then some INT_MIN :: readCells n ts true
    else some t :: readCells n ts false

/-- The cells of an array all of which have been assigned. -/
def assigned : List (Option Int) → Option (List Int)
  | [] => some []
  | none :: _ => none
  | some v :: cs =>
    match assigned cs with
    | some vs => some (v :: vs)
    | none => none

/-- The text written before the input is read. -/
def prompt : String := "Enter 10 elements of the array:\n"

/-- The driver `main`, as a function from the integers found on the input
stream to the text written to the output stream.  `minmax` reads every cell
of `a`, so a cell left unassigned by the input loop is a fault. -/
def main (fuel : Nat) (input : List Int) : Except Fault String :=
  -- for (int i = 0; i < 10; i++) cin >> a[i];
  match assigned (readCells 10 input false) with
  | none => .error .uninitialised
  | some a =>
    -- int min, max;  minmax(a, 0, 9, min, max);
    match minmax fuel a 0 9 { min := none, max := none } with
    | .error e => .error e
    | .ok (_, o) => do
        let mx ← readVar o.max
        let mn ← readVar o.min
        pure (prompt ++ "Maximum element: " ++ toString mx ++ "\n"
          ++ "Minimum element: " ++ toString mn ++ "\n")

/-! ## The midpoint in 32-bit arithmetic -/

theorem tdiv_two (x : Int) :
    Int.tdiv x 2 = if 0 ≤ x then x / 2 else -((-x) / 2) := by
  split_ifs with h
  · exact Int.tdiv_eq_ediv h (by norm_num)
  · rw [← Int.tdiv_eq_ediv (by omega) (by norm_num), Int.neg_tdiv, neg_neg]

theorem wrapInt32_cases (x : Int) :
    wrapInt32 x = (x + 2147483648) % 4294967296 - 2147483648 := by
  unfold wrapInt32
  norm_num

theorem mid32_eq_floor_of_le (low high : Int) (h0 : 0 ≤ low + high)
    (h : low + high ≤ 2147483647) : mid32 low high = (low + high) / 2 := by
  unfold mid32
  rw [wrapInt32_cases, tdiv_two]
  split_ifs <;> omega

theorem mid32_bounds (low high : Int) (h0 : 0 ≤ low) (hlt : low + 1 < high)
    (h : low + high ≤ 2147483647) :
    mid32 low high = (low + high) / 2 ∧ low < mid32 low high ∧ mid32 low high < high := by
  have e := mid32_eq_floor_of_le low high (by omega) h
  rw [e]
  omega

theorem mid32_range (low high : Int) :
    -1073741824 ≤ mid32 low high ∧ mid32 low high ≤ 1073741823 := by
  unfold mid32
  rw [wrapInt32_cases, tdiv_two]
  split_ifs <;> omega

theorem mid32_neg_of_overflow (low high : Int) (h : 2147483648 ≤ low + high)
    (h2 : high ≤ 2147483647) (h3 : low ≤ high) : mid32 low high < 0 := by
  unfold mid32
  rw [wrapInt32_cases, tdiv_two]
  split_ifs <;> omega

theorem mid32_lt_low (low high : Int) (h1 : 1 ≤ low) (h2 : high < low)
    (h3 : -2147483648 ≤ high) (h4 : low ≤ 2147483647) : mid32 low high < low := by
  unfold mid32
  rw [wrapInt32_cases, tdiv_two]
  split_ifs <;> omega

/-! ## Array reads, slices and the reference scans -/

theorem readAt_valid (a : List Int) (i : Int) (h0 : 0 ≤ i) (h1 : i < a.length) :
    ∃ v, a[i.toNat]? = some v ∧ readAt a i = .ok v := by
  have hlt : i.toNat < a.length := by omega
  refine ⟨a[i.toNat], List.getElem?_eq_getElem hlt, ?_⟩
  simp [readAt, h0, List.getElem?_eq_getElem hlt]

theorem readAt_ok_iff (a : List Int) (i v : Int) :
    readAt a i = .ok v ↔ 0 ≤ i ∧ a[i.toNat]? = some v := by
  unfold readAt
  by_cases h0 : 0 ≤ i
  · simp only [h0, if_true, true_and]
    cases h : a[i.toNat]? with
    | none => simp
    | some w => simp
  · simp [h0]

theorem readAt_cases (a : List Int) (i : Int) :
    (∃ v, readAt a i = .ok v) ∨ readAt a i = .error .outOfBounds := by
  unfold readAt
  by_cases h0 : 0 ≤ i
  · simp only [h0, if_true]
    cases a[i.toNat]? with
    | none => right; rfl
    | some w => left; exact ⟨w, rfl⟩
  · right; simp [h0]

theorem slice_single (a : List Int) (i v : Int) (h : readAt a i = .ok v) :
    slice a i i = [v] := by
  obtain ⟨_, hv⟩ := (readAt_ok_iff a i v).1 h
  obtain ⟨hlt, rfl⟩ := List.getElem?_eq_some_iff.1 hv
  unfold slice
  rw [List.drop_eq_getElem_cons hlt]
  simp only [sub_self, Int.toNat_zero, zero_add, List.take_succ_cons, List.take_zero]

theorem slice_split (a : List Int) (low m high : Int) (h0 : 0 ≤ low)
    (h1 : low ≤ m) (h2 : m < high) :
    slice a low high = slice a low m ++ slice a (m + 1) high := by
  unfold slice
  have e1 : (high - low).toNat + 1 = ((m - low).toNat + 1) + ((high - (m + 1)).toNat + 1) := by
    omega
  have e2 : (m + 1).toNat = low.toNat + ((m - low).toNat + 1) := by omega
  rw [e1, List.take_add, List.drop_drop, e2]

theorem slice_full (a : List Int) (h : a ≠ []) :
    slice a 0 ((a.length : Int) - 1) = a := by
  have hpos : 0 < a.length := List.length_pos.2 h
  unfold slice
  have e : ((a.length : Int) - 1 - 0).toNat + 1 = a.length := by omega
  rw [e]
  simp

theorem foldl_min_init (ys : List Int) (x y : Int) :
    ys.foldl min (min x y) = min x (ys.foldl min y) := by
  induction ys generalizing x y with
  | nil => rfl
  | cons z zs ih =>
    simp only [List.foldl_cons]
    rw [min_assoc, ih]

theorem foldl_max_init (ys : List Int) (x y : Int) :
    ys.foldl max (max x y) = max x (ys.foldl max y) := by
  induction ys generalizing x y with
  | nil => rfl
  | cons z zs ih =>
    simp only [List.foldl_cons]
    rw [max_assoc, ih]

theorem scanMin_append (s t : List Int) (m n : Int)
    (hs : scanMin s = some m) (ht : scanMin t = some n) :
    scanMin (s ++ t) = some (min m n) := by
  cases s with
  | nil => simp [scanMin] at hs
  | cons x xs =>
    cases t with
    | nil => simp [scanMin] at ht
    | cons y ys =>
      simp only [scanMin, Option.some.injEq] at hs ht
      subst hs; subst ht
      simp only [List.cons_append, scanMin, List.foldl_append, List.foldl_cons]
      rw [foldl_min_init]

theorem scanMax_append (s t : List Int) (m n : Int)
    (hs : scanMax s = some m) (ht : scanMax t = some n) :
    scanMax (s ++ t) = some (max m n) := by
  cases s with
  | nil => simp [scanMax] at hs
  | cons x xs =>
    cases t with
    | nil => simp [scanMax] at ht
    | cons y ys =>
      simp only [scanMax, Option.some.injEq] at hs ht
      subst hs; subst ht
      simp only [List.cons_append, scanMax, List.foldl_append, List.foldl_cons]
      rw [foldl_max_init]

theorem foldl_min_le (xs : List Int) (x : Int) :
    xs.foldl min x ≤ x ∧ (∀ y ∈ xs, xs.foldl min x ≤ y) ∧
      (xs.foldl min x = x ∨ xs.foldl min x ∈ xs) := by
  induction xs generalizing x with
  | nil => simp
  | cons z zs ih =>
    obtain ⟨h1, h2, h3⟩ := ih (min x z)
    simp only [List.foldl_cons, List.mem_cons, forall_eq_or_imp]
    refine ⟨le_trans h1 (min_le_left _ _), ⟨le_trans h1 (min_le_right _ _), h2⟩, ?_⟩
    rcases h3 with h3 | h3
    · rw [h3]
      rcases min_choice x z with h | h
      · left; exact h
      · right; left; exact h
    · right; right; exact h3

theorem foldl_max_ge (xs : List Int) (x : Int) :
    x ≤ xs.foldl max x ∧ (∀ y ∈ xs, y ≤ xs.foldl max x) ∧
      (xs.foldl max x = x ∨ xs.foldl max x ∈ xs) := by
  induction xs generalizing x with
  | nil => simp
  | cons z zs ih =>
    obtain ⟨h1, h2, h3⟩ := ih (max x z)
    simp only [List.foldl_cons, List.mem_cons, forall_eq_or_imp]
    refine ⟨le_trans (le_max_left _ _) h1, ⟨le_trans (le_max_right _ _) h1, h2⟩, ?_⟩
    rcases h3 with h3 | h3
    · rw [h3]
      rcases max_choice x z with h | h
      · left; exact h
      · right; left; exact h
    · right; right; exact h3

theorem scanMin_spec (s : List Int) (m : Int) (h : scanMin s = some m) :
    m ∈ s ∧ ∀ y ∈ s, m ≤ y := by
  cases s with
  | nil => simp [scanMin] at h
  | cons x xs =>
    simp only [scanMin, Option.some.injEq] at h
    subst h
    obtain ⟨h1, h2, h3⟩ := foldl_min_le xs x
    simp only [List.mem_cons, forall_eq_or_imp]
    exact ⟨h3, h1, h2⟩

theorem scanMax_spec (s : List Int) (m : Int) (h : scanMax s = some m) :
    m ∈ s ∧ ∀ y ∈ s, y ≤ m := by
  cases s with
  | nil => simp [scanMax] at h
  | cons x xs =>
    simp only [scanMax, Option.some.injEq] at h
    subst h
    obtain ⟨h1, h2, h3⟩ := foldl_max_ge xs x
    simp only [List.mem_cons, forall_eq_or_imp]
    exact ⟨h3, h1, h2⟩

theorem slice_getElem? (a : List Int) (low high : Int) (j : Nat) :
    (slice a low high)[j]? =
      if j < (high - low).toNat + 1 then a[low.toNat + j]? else none := by
  unfold slice
  rw [List.getElem?_take]
  split_ifs with h
  · rw [List.getElem?_drop]
  · rfl

theorem mem_slice (a : List Int) (low high x : Int) (h0 : 0 ≤ low) (hle : low ≤ high) :
    x ∈ slice a low high ↔ ∃ i, low ≤ i ∧ i ≤ high ∧ readAt a i = .ok x := by
  rw [List.mem_iff_getElem?]
  constructor
  · rintro ⟨j, hj⟩
    rw [slice_getElem?] at hj
    split_ifs at hj with hlt
    refine ⟨low + j, by omega, by omega, ?_⟩
    rw [readAt_ok_iff]
    refine ⟨by omega, ?_⟩
    have e : (low + (j : Int)).toNat = low.toNat + j := by omega
    rw [e]; exact hj
  · rintro ⟨i, h1, h2, h3⟩
    obtain ⟨_, hv⟩ := (readAt_ok_iff a i x).1 h3
    refine ⟨(i - low).toNat, ?_⟩
    rw [slice_getElem?, if_pos (by omega)]
    have e : low.toNat + (i - low).toNat = i.toNat := by omega
    rw [e]; exact hv

theorem slice_congr (s t : List Int) (low high : Int) (h0 : 0 ≤ low)
    (hle : low ≤ high) (hs : high < s.length) (hag : ∀ i, low ≤ i → i ≤ high → readAt s i = readAt t i) :
    slice s low high = slice t low high := by
  apply List.ext_getElem?
  intro j
  rw [slice_getElem?, slice_getElem?]
  split_ifs with hj
  · obtain ⟨v, hv, hr⟩ := readAt_valid s (low + j) (by omega) (by omega)
    have ht : readAt t (low + j) = .ok v := by
      rw [← hag (low + j) (by omega) (by omega)]; exact hr
    obtain ⟨_, htv⟩ := (readAt_ok_iff t (low + j) v).1 ht
    have e : (low + (j : Int)).toNat = low.toNat + j := by omega
    rw [e] at hv htv
    rw [hv, htv]
  · rfl

theorem indexRange_append (low m high : Int) (h1 : low ≤ m + 1) (h2 : m ≤ high) :
    indexRange low high = indexRange low m ++ indexRange (m + 1) high := by
  unfold indexRange
  have e : (high + 1 - low).toNat = (m + 1 - low).toNat + (high + 1 - (m + 1)).toNat := by
    omega
  rw [e, List.range_add, List.map_append, List.map_map]
  congr 1
  apply List.map_congr_left
  intro k _
  simp only [Function.comp_apply, Nat.cast_add]
  omega

theorem mem_indexRange (low high i : Int) :
    i ∈ indexRange low high ↔ low ≤ i ∧ i ≤ high := by
  unfold indexRange
  simp only [List.mem_map, List.mem_range]
  constructor
  · rintro ⟨k, hk, rfl⟩
    omega
  · rintro ⟨h1, h2⟩
    exact ⟨(i - low).toNat, by omega, by omega⟩

theorem merge_outs (mn1 mx1 mn2 mx2 : Int) :
    (if mn1 > mn2 then
        { (if mx1 < mx2 then { ({ min := some mn1, max := some mx1 } : Outs)
              with max := some mx2 }
            else ({ min := some mn1, max := some mx1 } : Outs)) with min := some mn2 }
      else (if mx1 < mx2 then { ({ min := some mn1, max := some mx1 } : Outs)
              with max := some mx2 }
            else ({ min := some mn1, max := some mx1 } : Outs)))
      = ({ min := some (min mn1 mn2), max := some (max mx1 mx2) } : Outs) := by
  by_cases h1 : mn1 > mn2 <;> by_cases h2 : mx1 < mx2
  · simp [h1, h2, min_eq_right (le_of_lt h1), max_eq_right (le_of_lt h2)]
  · simp [h1, h2, min_eq_right (le_of_lt h1), max_eq_left (not_lt.1 h2)]
  · simp [h1, h2, min_eq_left (not_lt.1 h1), max_eq_right (le_of_lt h2)]
  · simp [h1, h2, min_eq_left (not_lt.1 h1), max_eq_left (not_lt.1 h2)]

/-! ## Unfolding the procedure -/

theorem minmaxRun_single (fuel : Nat) (a : List Int) (low : Int) (out : Outs) :
    minmaxRun (fuel + 1) a low low out =
      (readAt a low).bind (fun v =>
        .ok { mem := a, out := { min := some v, max := some v },
              reads := [low], leaves := [(low, low)], comparisons := 0, depth := 0 }) := by
  rw [minmaxRun, if_pos rfl]
  rfl

theorem minmaxRun_pair (fuel : Nat) (a : List Int) (low high : Int) (out : Outs)
    (h : low = high - 1) :
    minmaxRun (fuel + 1) a low high out =
      (readAt a low).bind (fun x => (readAt a high).bind (fun y =>
        if x < y then
          (readAt a low).bind (fun v => (readAt a high).bind (fun w =>
            .ok { mem := a, out := { min := some v, max := some w },
                  reads := [low, high, low, high], leaves := [(low, high)],
                  comparisons := 1, depth := 0 }))
        else
          (readAt a high).bind (fun v => (readAt a low).bind (fun w =>
            .ok { mem := a, out := { min := some v, max := some w },
                  reads := [low, high, high, low], leaves := [(low, high)],
                  comparisons := 1, depth := 0 })))) := by
  have h1 : ¬ low = high := by omega
  rw [minmaxRun, if_neg h1, if_pos h]
  rfl

theorem minmaxRun_rec (fuel : Nat) (a : List Int) (low high : Int) (out : Outs)
    (h1 : low ≠ high) (h2 : low ≠ high - 1) :
    minmaxRun (fuel + 1) a low high out =
      (minmaxRun fuel a low (mid32 low high) out).bind (fun r1 =>
        (minmaxRun fuel r1.mem (mid32 low high + 1) high { min := none, max := none }).bind
          (fun r2 =>
            (readVar r1.out.max).bind (fun mx => (readVar r2.out.max).bind (fun mx1 =>
              (readVar (if mx < mx1 then { r1.out with max := some mx1 }
                  else r1.out).min).bind
                (fun mn => (readVar r2.out.min).bind (fun mn1 =>
                  .ok { mem := r2.mem,
                        out := if mn > mn1 then
                            { (if mx < mx1 then { r1.out with max := some mx1 } else r1.out)
                                with min := some mn1 }
                          else (if mx < mx1 then { r1.out with max := some mx1 }
                            else r1.out),
                        reads := r1.reads ++ r2.reads,
                        leaves := r1.leaves ++ r2.leaves,
                        comparisons := r1.comparisons + r2.comparisons + 2,
                        depth := 1 + max r1.depth r2.depth })))))) := by
  rw [minmaxRun, if_neg h1, if_neg h2]
  rfl

theorem minmaxRun_rec_err1 (fuel : Nat) (a : List Int) (low high : Int) (out : Outs)
    (h1 : low ≠ high) (h2 : low ≠ high - 1) (e : Fault)
    (hL : minmaxRun fuel a low (mid32 low high) out = .error e) :
    minmaxRun (fuel + 1) a low high out = .error e := by
  rw [minmaxRun_rec fuel a low high out h1 h2, hL]
  rfl

theorem minmaxRun_rec_err2 (fuel : Nat) (a : List Int) (low high : Int) (out : Outs)
    (h1 : low ≠ high) (h2 : low ≠ high - 1) (r1 : Run) (e : Fault)
    (hL : minmaxRun fuel a low (mid32 low high) out = .ok r1)
    (hR : minmaxRun fuel r1.mem (mid32 low high + 1) high { min := none, max := none }
      = .error e) :
    minmaxRun (fuel + 1) a low high out = .error e := by
  rw [minmaxRun_rec fuel a low high out h1 h2, hL]
  simp only [Except.bind]
  rw [hR]

theorem minmaxRun_rec_ok (fuel : Nat) (a : List Int) (low high : Int) (out : Outs)
    (h1 : low ≠ high) (h2 : low ≠ high - 1) (r1 r2 : Run) (mn1 mx1 mn2 mx2 : Int)
    (hL : minmaxRun fuel a low (mid32 low high) out = .ok r1)
    (hR : minmaxRun fuel r1.mem (mid32 low high + 1) high { min := none, max := none }
      = .ok r2)
    (ho1 : r1.out = { min := some mn1, max := some mx1 })
    (ho2 : r2.out = { min := some mn2, max := some mx2 }) :
    minmaxRun (fuel + 1) a low high out =
      .ok { mem := r2.mem,
            out := { min := some (min mn1 mn2), max := some (max mx1 mx2) },
            reads := r1.reads ++ r2.reads,
            leaves := r1.leaves ++ r2.leaves,
            comparisons := r1.comparisons + r2.comparisons + 2,
            depth := 1 + max r1.depth r2.depth } := by
  rw [minmaxRun_rec fuel a low high out h1 h2, hL]
  simp only [Except.bind]
  rw [hR]
  simp only [Except.bind, ho1, ho2, readVar]
  have e : (if mx1 < mx2 then { ({ min := some mn1, max := some mx1 } : Outs)
              with max := some mx2 }
            else ({ min := some mn1, max := some mx1 } : Outs)).min = some mn1 := by
    split_ifs <;> rfl
  rw [e]
  simp only [readVar, Except.bind]
  rw [merge_outs]

theorem minmaxRun_pair_ok (fuel : Nat) (a : List Int) (low high : Int) (out : Outs)
    (x y : Int) (h : low = high - 1) (hx : readAt a low = .ok x)
    (hy : readAt a high = .ok y) :
    minmaxRun (fuel + 1) a low high out =
      .ok { mem := a, out := { min := some (min x y), max := some (max x y) },
            reads := if x < y then [low, high, low, high] else [low, high, high, low],
            leaves := [(low, high)], comparisons := 1, depth := 0 } := by
  rw [minmaxRun_pair fuel a low high out h, hx, hy]
  simp only [Except.bind]
  by_cases hxy : x < y
  · simp [hxy, min_eq_left hxy.le, max_eq_right hxy.le]
  · simp [hxy, min_eq_right (not_lt.1 hxy), max_eq_left (not_lt.1 hxy)]

theorem minmax_eq_ok (fuel : Nat) (a : List Int) (low high : Int) (out : Outs) (r : Run)
    (h : minmaxRun fuel a low high out = .ok r) :
    minmax fuel a low high out = .ok (r.mem, r.out) := by
  unfold minmax
  rw [h]

theorem minmax_eq_error (fuel : Nat) (a : List Int) (low high : Int) (out : Outs)
    (e : Fault) (h : minmaxRun fuel a low high out = .error e) :
    minmax fuel a low high out = .error e := by
  unfold minmax
  rw [h]

theorem minmax_ok_inv (fuel : Nat) (a : List Int) (low high : Int) (out : Outs)
    (p : List Int × Outs) (h : minmax fuel a low high out = .ok p) :
    ∃ r, minmaxRun fuel a low high out = .ok r ∧ p = (r.mem, r.out) := by
  unfold minmax at h
  cases hr : minmaxRun fuel a low high out with
  | error e => rw [hr] at h; cases h
  | ok r =>
    rw [hr] at h
    cases h
    exact ⟨r, rfl, rfl⟩

/-! ## Facts that hold for every call -/

theorem minmaxRun_shape :
    ∀ (fuel : Nat) (a : List Int) (low high : Int) (out : Outs),
      (∃ r mn mx, minmaxRun fuel a low high out = .ok r ∧ r.mem = a ∧
          r.out = { min := some mn, max := some mx }) ∨
        minmaxRun fuel a low high out = .error .outOfBounds ∨
        minmaxRun fuel a low high out = .error .outOfFuel := by
  intro fuel
  induction fuel with
  | zero => intro a low high out; right; right; rfl
  | succ f ih =>
    intro a low high out
    by_cases h1 : low = high
    · subst h1
      rw [minmaxRun_single]
      rcases readAt_cases a low with ⟨v, hv⟩ | hv
      · left; rw [hv]; exact ⟨_, v, v, rfl, rfl, rfl⟩
      · right; left; rw [hv]; rfl
    · by_cases h2 : low = high - 1
      · rw [minmaxRun_pair f a low high out h2]
        rcases readAt_cases a low with ⟨x, hx⟩ | hx
        · rcases readAt_cases a high with ⟨y, hy⟩ | hy
          · left
            rw [← minmaxRun_pair f a low high out h2]
            exact ⟨_, _, _, minmaxRun_pair_ok f a low high out x y h2 hx hy, rfl, rfl⟩
          · right; left; rw [hx, hy]; rfl
        · right; left; rw [hx]; rfl
      · rcases ih a low (mid32 low high) out with ⟨r1, mn1, mx1, hL, hm1, ho1⟩ | hL | hL
        · rcases ih r1.mem (mid32 low high + 1) high { min := none, max := none } with
            ⟨r2, mn2, mx2, hR, hm2, ho2⟩ | hR | hR
          · left
            refine ⟨_, _, _, minmaxRun_rec_ok f a low high out h1 h2 r1 r2 mn1 mx1 mn2 mx2
              hL hR ho1 ho2, ?_, rfl⟩
            show r2.mem = a
            rw [hm2, hm1]
          · right; left
            exact minmaxRun_rec_err2 f a low high out h1 h2 r1 _ hL hR
          · right; right
            exact minmaxRun_rec_err2 f a low high out h1 h2 r1 _ hL hR
        · right; left
          exact minmaxRun_rec_err1 f a low high out h1 h2 _ hL
        · right; right
          exact minmaxRun_rec_err1 f a low high out h1 h2 _ hL

theorem minmaxRun_out_irrel :
    ∀ (fuel : Nat) (a : List Int) (low high : Int) (out out2 : Outs),
      minmaxRun fuel a low high out = minmaxRun fuel a low high out2 := by
  intro fuel
  induction fuel with
  | zero => intro a low high out out2; rfl
  | succ f ih =>
    intro a low high out out2
    by_cases h1 : low = high
    · subst h1
      rw [minmaxRun_single, minmaxRun_single]
    · by_cases h2 : low = high - 1
      · rw [minmaxRun_pair f a low high out h2, minmaxRun_pair f a low high out2 h2]
      · rw [minmaxRun_rec f a low high out h1 h2, minmaxRun_rec f a low high out2 h1 h2,
          ih a low (mid32 low high) out out2]

theorem minmaxRun_fuel_succ :
    ∀ (fuel : Nat) (a : List Int) (low high : Int) (out : Outs) (r : Run),
      minmaxRun fuel a low high out = .ok r →
      minmaxRun (fuel + 1) a low high out = .ok r := by
  intro fuel
  induction fuel with
  | zero => intro a low high out r h; cases h
  | succ f ih =>
    intro a low high out r h
    by_cases h1 : low = high
    · subst h1
      rw [minmaxRun_single] at h ⊢
      exact h
    · by_cases h2 : low = high - 1
      · rw [minmaxRun_pair _ a low high out h2] at h ⊢
        exact h
      · rcases minmaxRun_shape f a low (mid32 low high) out with
          ⟨r1, mn1, mx1, hL, _, ho1⟩ | hL | hL
        · rcases minmaxRun_shape f r1.mem (mid32 low high + 1) high
              { min := none, max := none } with ⟨r2, mn2, mx2, hR, _, ho2⟩ | hR | hR
          · rw [minmaxRun_rec_ok f a low high out h1 h2 r1 r2 mn1 mx1 mn2 mx2
              hL hR ho1 ho2] at h
            rw [← h]
            exact minmaxRun_rec_ok (f + 1) a low high out h1 h2 r1 r2 mn1 mx1 mn2 mx2
              (ih _ _ _ _ _ hL) (ih _ _ _ _ _ hR) ho1 ho2
          · rw [minmaxRun_rec_err2 f a low high out h1 h2 r1 _ hL hR] at h; cases h
          · rw [minmaxRun_rec_err2 f a low high out h1 h2 r1 _ hL hR] at h; cases h
        · rw [minmaxRun_rec_err1 f a low high out h1 h2 _ hL] at h; cases h
        · rw [minmaxRun_rec_err1 f a low high out h1 h2 _ hL] at h; cases h

theorem minmaxRun_fuel_mono (fuel k : Nat) (a : List Int) (low high : Int) (out : Outs)
    (r : Run) (h : minmaxRun fuel a low high out = .ok r) :
    minmaxRun (fuel + k) a low high out = .ok r := by
  induction k with
  | zero => exact h
  | succ k ih => exact minmaxRun_fuel_succ _ a low high out r ih

/-! ## Calls that never return -/

theorem minmaxRun_empty_range :
    ∀ (fuel : Nat) (a : List Int) (low high : Int) (out : Outs),
      1 ≤ low → low ≤ 2147483647 → high < low → -2147483648 ≤ high →
      minmaxRun fuel a low high out = .error .outOfFuel := by
  intro fuel
  induction fuel with
  | zero => intro a low high out _ _ _ _; rfl
  | succ f ih =>
    intro a low high out h1 h2 h3 h4
    have hm := mid32_lt_low low high h1 h3 h4 h2
    have hr := mid32_range low high
    exact minmaxRun_rec_err1 f a low high out (by omega) (by omega) _
      (ih a low (mid32 low high) out h1 h2 hm (by omega))

theorem minmaxRun_overflow :
    ∀ (fuel : Nat) (a : List Int) (low high : Int) (out : Outs),
      low + 1 < high → high ≤ 2147483647 → 2147483648 ≤ low + high →
      minmaxRun fuel a low high out = .error .outOfFuel := by
  intro fuel a low high out h1 h2 h3
  cases fuel with
  | zero => rfl
  | succ f =>
    have hm := mid32_neg_of_overflow low high h3 h2 (by omega)
    have hr := mid32_range low high
    exact minmaxRun_rec_err1 f a low high out (by omega) (by omega) _
      (minmaxRun_empty_range f a low (mid32 low high) out (by omega) (by omega)
        (by omega) (by omega))

theorem minmaxRun_terminates :
    ∀ (fuel : Nat) (a : List Int) (low high : Int) (out : Outs),
      0 ≤ low → low ≤ high → high ≤ 1073741823 → (high - low).toNat < fuel →
      minmaxRun fuel a low high out ≠ .error .outOfFuel := by
  intro fuel
  induction fuel with
  | zero => intro a low high out _ _ _ hf; omega
  | succ f ih =>
    intro a low high out h0 hle hb hf
    by_cases h1 : low = high
    · subst h1
      rw [minmaxRun_single]
      rcases readAt_cases a low with ⟨v, hv⟩ | hv
      · rw [hv]; simp [Except.bind]
      · rw [hv]; simp [Except.bind]
    · by_cases h2 : low = high - 1
      · rcases minmaxRun_shape (f + 1) a low high out with ⟨r, _, _, h, _, _⟩ | h | h
        · rw [h]; simp
        · rw [h]; simp
        · exfalso
          rcases readAt_cases a low with ⟨x, hx⟩ | hx
          · rcases readAt_cases a high with ⟨y, hy⟩ | hy
            · rw [minmaxRun_pair_ok f a low high out x y h2 hx hy] at h
              cases h
            · rw [minmaxRun_pair f a low high out h2, hx, hy] at h; cases h
          · rw [minmaxRun_pair f a low high out h2, hx] at h; cases h
      · obtain ⟨_, hm1, hm2⟩ := mid32_bounds low high h0 (by omega) (by omega)
        have hL := ih a low (mid32 low high) out h0 (by omega) (by omega) (by omega)
        rcases minmaxRun_shape f a low (mid32 low high) out with
          ⟨r1, mn1, mx1, hL1, _, ho1⟩ | hL1 | hL1
        · have hR := ih r1.mem (mid32 low high + 1) high { min := none, max := none }
            (by omega) (by omega) hb (by omega)
          rcases minmaxRun_shape f r1.mem (mid32 low high + 1) high
              { min := none, max := none } with ⟨r2, mn2, mx2, hR1, _, ho2⟩ | hR1 | hR1
          · rw [minmaxRun_rec_ok f a low high out h1 h2 r1 r2 mn1 mx1 mn2 mx2
              hL1 hR1 ho1 ho2]
            simp
          · rw [minmaxRun_rec_err2 f a low high out h1 h2 r1 _ hL1 hR1]; simp
          · exact absurd hR1 hR
        · rw [minmaxRun_rec_err1 f a low high out h1 h2 _ hL1]; simp
        · exact absurd hL1 hL

/-! ## The record of a returning run -/

theorem runSpec_single (a : List Int) (low v : Int) (hv : readAt a low = .ok v) :
    RunSpec a low low
      { mem := a, out := { min := some v, max := some v },
        reads := [low], leaves := [(low, low)], comparisons := 0, depth := 0 } where
  mem_eq := rfl
  out_eq := ⟨v, v, by rw [slice_single a low v hv]; rfl,
    by rw [slice_single a low v hv]; rfl, rfl⟩
  reads_iff := by
    intro i
    simp only [List.mem_singleton]
    omega
  leaves_flat := by simp
  leaves_base := by
    intro p hp
    simp only [List.mem_singleton] at hp
    subst hp
    left; rfl
  cmp_single := fun _ => rfl
  cmp_bound := fun h => absurd h (lt_irrefl _)
  cmp_pow := by
    intro k hk h
    exfalso
    have h2 : (2 : Int) ≤ 2 ^ k := by
      calc (2 : Int) = 2 ^ 1 := by norm_num
        _ ≤ 2 ^ k := pow_le_pow_right₀ (by norm_num) hk
    omega
  depth_base := fun _ => rfl
  depth_lt := fun h => absurd h (lt_irrefl _)

theorem runSpec_pair (a : List Int) (low high x y : Int) (h0 : 0 ≤ low)
    (h : low = high - 1) (hx : readAt a low = .ok x) (hy : readAt a high = .ok y) :
    RunSpec a low high
      { mem := a, out := { min := some (min x y), max := some (max x y) },
        reads := if x < y then [low, high, low, high] else [low, high, high, low],
        leaves := [(low, high)], comparisons := 1, depth := 0 } where
  mem_eq := rfl
  out_eq := by
    have hs : slice a low high = [x, y] := by
      rw [slice_split a low low high h0 le_rfl (by omega), slice_single a low x hx]
      have e : low + 1 = high := by omega
      rw [e, slice_single a high y hy]
      rfl
    exact ⟨min x y, max x y, by rw [hs]; rfl, by rw [hs]; rfl, rfl⟩
  reads_iff := by
    intro i
    split_ifs <;> simp only [List.mem_cons, List.mem_singleton, List.not_mem_nil, or_false] <;>
      omega
  leaves_flat := by simp
  leaves_base := by
    intro p hp
    simp only [List.mem_singleton] at hp
    subst hp
    right; exact h
  cmp_single := fun hh => by omega
  cmp_bound := fun _ => by
    show 3 * ((1 : Nat) : Int) + 6 ≤ 5 * (high - low + 1)
    omega
  cmp_pow := by
    intro k hk hh
    show 2 * 1 + 4 = 3 * 2 ^ k
    have e : (2 : Int) ^ k = 2 := by omega
    have e2 : ((2 ^ k : Nat) : Int) = 2 := by push_cast; exact e
    omega
  depth_base := fun _ => rfl
  depth_lt := fun _ => by
    show (2 : Int) ^ 0 < high - low + 1
    norm_num
    omega

theorem runSpec_merge (a : List Int) (low high : Int) (r1 r2 : Run)
    (mn1 mx1 mn2 mx2 : Int) (h0 : 0 ≤ low) (hlt : low + 1 < high)
    (hm : mid32 low high = (low + high) / 2)
    (s1 : RunSpec a low (mid32 low high) r1)
    (s2 : RunSpec a (mid32 low high + 1) high r2)
    (ho1 : r1.out = { min := some mn1, max := some mx1 })
    (ho2 : r2.out = { min := some mn2, max := some mx2 }) :
    RunSpec a low high
      { mem := r2.mem,
        out := { min := some (min mn1 mn2), max := some (max mx1 mx2) },
        reads := r1.reads ++ r2.reads,
        leaves := r1.leaves ++ r2.leaves,
        comparisons := r1.comparisons + r2.comparisons + 2,
        depth := 1 + max r1.depth r2.depth } where
  mem_eq := s2.mem_eq
  out_eq := by
    obtain ⟨a1, b1, e1, f1, g1⟩ := s1.out_eq
    obtain ⟨a2, b2, e2, f2, g2⟩ := s2.out_eq
    rw [ho1] at g1
    rw [ho2] at g2
    cases g1; cases g2
    rw [slice_split a low (mid32 low high) high h0 (by omega) (by omega)]
    exact ⟨_, _, scanMin_append _ _ _ _ e1 e2, scanMax_append _ _ _ _ f1 f2, rfl⟩
  reads_iff := by
    intro i
    have h1 := s1.reads_iff i
    have h2 := s2.reads_iff i
    simp only [List.mem_append, h1, h2]
    omega
  leaves_flat := by
    show (r1.leaves ++ r2.leaves).flatMap (fun p => indexRange p.1 p.2) = indexRange low high
    rw [List.flatMap_append, s1.leaves_flat, s2.leaves_flat]
    exact (indexRange_append low (mid32 low high) high (by omega) (by omega)).symm
  leaves_base := by
    intro p hp
    rcases List.mem_append.1 hp with h | h
    · exact s1.leaves_base p h
    · exact s2.leaves_base p h
  cmp_single := fun hh => by omega
  cmp_bound := fun _ => by
    show 3 * ((r1.comparisons + r2.comparisons + 2 : Nat) : Int) + 6 ≤ 5 * (high - low + 1)
    have hL := s1.cmp_bound (by omega)
    rcases eq_or_lt_of_le (show mid32 low high + 1 ≤ high by omega) with hq | hq
    · have hR := s2.cmp_single hq
      rw [hR]
      push_cast
      omega
    · have hR := s2.cmp_bound hq
      push_cast
      omega
  cmp_pow := by
    intro k hk hh
    show 2 * (r1.comparisons + r2.comparisons + 2) + 4 = 3 * 2 ^ k
    obtain ⟨j, rfl⟩ : ∃ j, k = j + 1 := ⟨k - 1, by omega⟩
    have hj : 1 ≤ j := by
      rcases Nat.eq_zero_or_pos j with hz | hp
      · subst hz
        norm_num at hh
        omega
      · exact hp
    have hpow : (2 : Int) ^ (j + 1) = 2 * 2 ^ j := by ring
    rw [hpow] at hh
    have hL := s1.cmp_pow j hj (by omega)
    have hR := s2.cmp_pow j hj (by omega)
    have hp : 2 ^ (j + 1) = 2 * 2 ^ j := by ring
    rw [hp]
    omega
  depth_base := fun hh => by omega
  depth_lt := fun _ => by
    show (2 : Int) ^ (1 + max r1.depth r2.depth) < high - low + 1
    have hL := s1.depth_lt (by omega)
    have hR : (2 : Int) ^ r2.depth < high - (mid32 low high + 1) + 1 ∨ r2.depth = 0 := by
      rcases eq_or_lt_of_le (show mid32 low high + 1 ≤ high by omega) with hq | hq
      · right; exact s2.depth_base (by omega)
      · left; exact s2.depth_lt hq
    rw [pow_add, pow_one]
    rcases max_choice r1.depth r2.depth with hc | hc
    · rw [hc]; omega
    · rw [hc]
      rcases hR with hR | hR
      · omega
      · rw [hR]; norm_num; omega

theorem minmaxRun_spec :
    ∀ (fuel : Nat) (a : List Int) (low high : Int) (out : Outs),
      0 ≤ low → low ≤ high → high < a.length → high ≤ 2147483647 →
      (∃ r, minmaxRun fuel a low high out = .ok r ∧ RunSpec a low high r) ∨
        (minmaxRun fuel a low high out = .error .outOfFuel ∧
          (1073741824 ≤ high ∨ fuel ≤ (high - low).toNat)) := by
  intro fuel
  induction fuel with
  | zero =>
    intro a low high out _ _ _ _
    right
    exact ⟨rfl, Or.inr (Nat.zero_le _)⟩
  | succ f ih =>
    intro a low high out h0 hle hlen hb
    by_cases h1 : low = high
    · subst h1
      obtain ⟨v, _, hv⟩ := readAt_valid a low h0 hlen
      left
      refine ⟨_, ?_, runSpec_single a low v hv⟩
      rw [minmaxRun_single, hv]
      rfl
    · by_cases h2 : low = high - 1
      · obtain ⟨x, _, hx⟩ := readAt_valid a low h0 (by omega)
        obtain ⟨y, _, hy⟩ := readAt_valid a high (by omega) hlen
        left
        exact ⟨_, minmaxRun_pair_ok f a low high out x y h2 hx hy,
          runSpec_pair a low high x y h0 h2 hx hy⟩
      · rcases le_or_lt (low + high) 2147483647 with hs | hs
        · obtain ⟨hm, hm1, hm2⟩ := mid32_bounds low high h0 (by omega) hs
          rcases ih a low (mid32 low high) out h0 (by omega) (by omega) (by omega) with
            ⟨r1, hL, s1⟩ | ⟨hL, hc⟩
          · have hmem := s1.mem_eq
            rcases ih r1.mem (mid32 low high + 1) high { min := none, max := none }
                (by omega) (by omega) (by rw [hmem]; exact hlen) hb with
              ⟨r2, hR, s2⟩ | ⟨hR, hc⟩
            · rw [hmem] at s2
              obtain ⟨mn1, mx1, _, _, ho1⟩ := s1.out_eq
              obtain ⟨mn2, mx2, _, _, ho2⟩ := s2.out_eq
              left
              exact ⟨_, minmaxRun_rec_ok f a low high out h1 h2 r1 r2 mn1 mx1 mn2 mx2
                hL hR ho1 ho2,
                runSpec_merge a low high r1 r2 mn1 mx1 mn2 mx2 h0 (by omega) hm s1 s2
                  ho1 ho2⟩
            · right
              refine ⟨minmaxRun_rec_err2 f a low high out h1 h2 r1 _ hL hR, ?_⟩
              omega
          · right
            refine ⟨minmaxRun_rec_err1 f a low high out h1 h2 _ hL, ?_⟩
            omega
        · right
          refine ⟨minmaxRun_overflow (f + 1) a low high out (by omega) hb (by omega), ?_⟩
          omega

theorem minmaxRun_returns (fuel : Nat) (a : List Int) (low high : Int) (out : Outs)
    (h0 : 0 ≤ low) (hle : low ≤ high) (hlen : high < a.length)
    (hb : high ≤ 1073741823) (hf : (high - low).toNat < fuel) :
    ∃ r, minmaxRun fuel a low high out = .ok r ∧ RunSpec a low high r := by
  rcases minmaxRun_spec fuel a low high out h0 hle hlen (by omega) with h | ⟨_, hc⟩
  · exact h
  · omega

theorem minmaxRun_ok_spec (fuel : Nat) (a : List Int) (low high : Int) (out : Outs)
    (r : Run) (h0 : 0 ≤ low) (hle : low ≤ high) (hlen : high < a.length)
    (hb : high ≤ 2147483647) (h : minmaxRun fuel a low high out = .ok r) :
    RunSpec a low high r := by
  rcases minmaxRun_spec fuel a low high out h0 hle hlen hb with ⟨r2, h2, s⟩ | ⟨h2, _⟩
  · rw [h] at h2
    cases h2
    exact s
  · rw [h] at h2
    cases h2

/-! ## The range `[2^30, 2^30 + 2]` -/

theorem hugeArray_length : hugeArray.length = 2 ^ 30 + 4 := by
  unfold hugeArray
  rw [List.length_replicate]

theorem readAt_hugeArray (i : Int) (h0 : 0 ≤ i) (h1 : i < 2 ^ 30 + 4) :
    readAt hugeArray i = .ok 0 := by
  have hl : i < hugeArray.length := by
    rw [hugeArray_length]
    push_cast
    exact h1
  obtain ⟨v, hv, hr⟩ := readAt_valid hugeArray i h0 hl
  have hmem : v ∈ hugeArray := List.mem_iff_getElem?.2 ⟨_, hv⟩
  have hz : v = 0 := by
    unfold hugeArray at hmem
    exact List.eq_of_mem_replicate hmem
  rw [hr, hz]

theorem minmax_overflow_three (fuel : Nat) (a : List Int) (out : Outs) :
    minmax fuel a (2 ^ 30) (2 ^ 30 + 2) out = .error .outOfFuel :=
  minmax_eq_error fuel a _ _ out _
    (minmaxRun_overflow fuel a _ _ out (by norm_num) (by norm_num) (by norm_num))

theorem minmax_overflow_four (fuel : Nat) (a : List Int) (out : Outs) :
    minmax fuel a (2 ^ 30) (2 ^ 30 + 3) out = .error .outOfFuel :=
  minmax_eq_error fuel a _ _ out _
    (minmaxRun_overflow fuel a _ _ out (by norm_num) (by norm_num) (by norm_num))

theorem hugeArray_valid :
    (0 : Int) ≤ 2 ^ 30 ∧ (2 ^ 30 : Int) ≤ 2 ^ 30 + 2 ∧
      (2 ^ 30 + 2 : Int) < hugeArray.length := by
  rw [hugeArray_length]
  norm_num

/-! ## Claims C1 to C3: functional correctness -/

theorem minmax_scan (fuel : Nat) (a : List Int) (low high : Int) (out : Outs)
    (h0 : 0 ≤ low) (hle : low ≤ high) (hlen : high < a.length)
    (hb : high ≤ 2 ^ 30 - 1) (hf : (high - low).toNat < fuel) :
    ∃ mn mx, scanMin (slice a low high) = some mn ∧
      scanMax (slice a low high) = some mx ∧
      minmax fuel a low high out = .ok (a, { min := some mn, max := some mx }) := by
  obtain ⟨r, hr, sp⟩ := minmaxRun_returns fuel a low high out h0 hle hlen
    (by norm_num at hb; omega) hf
  obtain ⟨mn, mx, h1, h2, h3⟩ := sp.out_eq
  refine ⟨mn, mx, h1, h2, ?_⟩
  rw [minmax_eq_ok fuel a low high out r hr, sp.mem_eq, h3]

/-- C1, as stated, fails: `[2^30, 2^30 + 2]` is a valid range of an array of
`2^30 + 4` cells, but there `low + high` exceeds `2^31 - 1`, the 32-bit
midpoint is negative and the call never returns, whatever the fuel. -/
theorem linear_scan_fails_beyond_two_pow_30 :
    ((0 : Int) ≤ 2 ^ 30 ∧ (2 ^ 30 : Int) ≤ 2 ^ 30 + 2 ∧
        (2 ^ 30 + 2 : Int) < hugeArray.length) ∧
      mid32 (2 ^ 30) (2 ^ 30 + 2) = -1073741823 ∧
      ∀ fuel out, minmax fuel hugeArray (2 ^ 30) (2 ^ 30 + 2) out = .error .outOfFuel :=
  ⟨hugeArray_valid, by decide, fun fuel out => minmax_overflow_three fuel hugeArray out⟩

/-- C1, amended: on every valid range `0 ≤ low ≤ high < length a` with
`high ≤ 2^30 - 1` the procedure returns (with fuel above `high - low`) as
`min` and `max` the results of the brute-force linear scans over
`a[low], ..., a[high]`; these bound every element of the range; and on the
full range `[0, length a - 1]` the pair is the scan of the whole array.  On
a valid range beyond that bound a call that returns still returns the
scans. -/
theorem minmax_eq_linear_scan (fuel : Nat) (a : List Int) (low high : Int) (out : Outs)
    (h0 : 0 ≤ low) (hle : low ≤ high) (hlen : high < a.length) :
    (high ≤ 2 ^ 30 - 1 → (high - low).toNat < fuel →
      (∃ mn mx, scanMin (slice a low high) = some mn ∧
          scanMax (slice a low high) = some mx ∧
          minmax fuel a low high out = .ok (a, { min := some mn, max := some mx }) ∧
          (∀ i v, low ≤ i → i ≤ high → readAt a i = .ok v → mn ≤ v ∧ v ≤ mx)) ∧
        (low = 0 → high = (a.length : Int) - 1 →
          minmax fuel a low high out = .ok (a, { min := scanMin a, max := scanMax a }))) ∧
      (high ≤ INT_MAX → ∀ p, minmax fuel a low high out = .ok p →
        p = (a, { min := scanMin (slice a low high),
                  max := scanMax (slice a low high) })) := by
  refine ⟨?_, ?_⟩
  · intro hb hf
    obtain ⟨mn, mx, h1, h2, h3⟩ := minmax_scan fuel a low high out h0 hle hlen hb hf
    refine ⟨⟨mn, mx, h1, h2, h3, ?_⟩, ?_⟩
    · intro i v hi1 hi2 hv
      have hmem : v ∈ slice a low high :=
        (mem_slice a low high v h0 hle).2 ⟨i, hi1, hi2, hv⟩
      exact ⟨(scanMin_spec _ _ h1).2 v hmem, (scanMax_spec _ _ h2).2 v hmem⟩
    · intro hl hh
      subst hl; subst hh
      have hne : a ≠ [] := by
        intro h; subst h; simp at hle
      rw [slice_full a hne] at h1 h2
      rw [h3, h1, h2]
  · intro hint p hp
    obtain ⟨r, hr, rfl⟩ := minmax_ok_inv fuel a low high out p hp
    have sp := minmaxRun_ok_spec fuel a low high out r h0 hle hlen
      (by unfold INT_MAX at hint; norm_num at hint; omega) hr
    obtain ⟨mn, mx, h1, h2, h3⟩ := sp.out_eq
    rw [sp.mem_eq, h3, h1, h2]

theorem minmax_eq_linear_scan_witness :
    minmax 3 [4, 2, 7, 1, 9] 1 3 { min := none, max := none }
        = .ok ([4, 2, 7, 1, 9], { min := some 1, max := some 7 }) ∧
      minmax 5 [4, 2, 7, 1, 9] 0 4 { min := none, max := none }
        = .ok ([4, 2, 7, 1, 9], { min := some 1, max := some 9 }) := by
  constructor
  · obtain ⟨⟨mn, mx, h1, h2, h3, _⟩, _⟩ :=
      (minmax_eq_linear_scan 3 [4, 2, 7, 1, 9] 1 3 { min := none, max := none }
        (by decide) (by decide) (by decide)).1 (by decide) (by decide)
    have e1 : scanMin (slice [4, 2, 7, 1, 9] 1 3) = some 1 := by decide
    have e2 : scanMax (slice [4, 2, 7, 1, 9] 1 3) = some 7 := by decide
    rw [e1] at h1; rw [e2] at h2
    cases h1; cases h2
    exact h3
  · have h := ((minmax_eq_linear_scan 5 [4, 2, 7, 1, 9] 0 4 { min := none, max := none }
        (by decide) (by decide) (by decide)).1 (by decide) (by decide)).2 rfl (by decide)
    rw [h]
    rfl

/-- C2: for every index `0 ≤ i < length a`, `minmax a i i` returns the pair
`(a[i], a[i])` (one unit of fuel suffices). -/
theorem minmax_single_element (fuel : Nat) (a : List Int) (i : Int) (out : Outs)
    (h0 : 0 ≤ i) (h1 : i < a.length) :
    ∃ v, a[i.toNat]? = some v ∧
      minmax (fuel + 1) a i i out = .ok (a, { min := some v, max := some v }) := by
  obtain ⟨v, hv, hr⟩ := readAt_valid a i h0 h1
  refine ⟨v, hv, ?_⟩
  have h : minmaxRun (fuel + 1) a i i out
      = .ok { mem := a, out := { min := some v, max := some v },
              reads := [i], leaves := [(i, i)], comparisons := 0, depth := 0 } := by
    rw [minmaxRun_single, hr]
    rfl
  rw [minmax_eq_ok _ a i i out _ h]

theorem minmax_single_element_witness :
    minmax 1 [8, 6, 7] 1 1 { min := none, max := some 0 }
      = .ok ([8, 6, 7], { min := some 6, max := some 6 }) := by
  obtain ⟨v, hv, h⟩ := minmax_single_element 0 [8, 6, 7] 1 { min := none, max := some 0 }
    (by decide) (by decide)
  have e : ([8, 6, 7] : List Int)[(1 : Int).toNat]? = some 6 := by decide
  rw [e] at hv
  cases hv
  exact h

theorem minmax_pair_ok (fuel : Nat) (a : List Int) (low high : Int) (out : Outs)
    (x y : Int) (h : low = high - 1) (hx : readAt a low = .ok x)
    (hy : readAt a high = .ok y) :
    minmax (fuel + 1) a low high out
      = .ok (a, { min := some (min x y), max := some (max x y) }) := by
  rw [minmax_eq_ok _ a low high out _ (minmaxRun_pair_ok fuel a low high out x y h hx hy)]

/-- C3: for every `0 ≤ low` with `low + 1 < length a`, `minmax a low (low + 1)`
returns the lesser of `a[low]`, `a[low + 1]` as `min` and the greater as `max`,
in whichever order they appear; both `[5, 3]` and `[3, 5]` give `(3, 5)`
(one unit of fuel suffices). -/
theorem minmax_two_elements (fuel : Nat) (a : List Int) (low : Int) (out : Outs)
    (h0 : 0 ≤ low) (h1 : low + 1 < a.length) :
    (∃ x y, a[low.toNat]? = some x ∧ a[(low + 1).toNat]? = some y ∧
        minmax (fuel + 1) a low (low + 1) out
          = .ok (a, { min := some (min x y), max := some (max x y) })) ∧
      minmax (fuel + 1) [5, 3] 0 1 out = .ok ([5, 3], { min := some 3, max := some 5 }) ∧
      minmax (fuel + 1) [3, 5] 0 1 out = .ok ([3, 5], { min := some 3, max := some 5 }) := by
  refine ⟨?_, ?_, ?_⟩
  · obtain ⟨x, hx, hrx⟩ := readAt_valid a low h0 (by omega)
    obtain ⟨y, hy, hry⟩ := readAt_valid a (low + 1) (by omega) h1
    exact ⟨x, y, hx, hy, minmax_pair_ok fuel a low (low + 1) out x y (by omega) hrx hry⟩
  · exact minmax_pair_ok fuel [5, 3] 0 1 out 5 3 (by decide) rfl rfl
  · exact minmax_pair_ok fuel [3, 5] 0 1 out 3 5 (by decide) rfl rfl

theorem minmax_two_elements_witness :
    minmax 1 [2, 6, 6, 1] 1 2 { min := some 9, max := none }
      = .ok ([2, 6, 6, 1], { min := some 6, max := some 6 }) := by
  obtain ⟨x, y, hx, hy, h⟩ :=
    (minmax_two_elements 0 [2, 6, 6, 1] 1 { min := some 9, max := none }
      (by decide) (by decide)).1
  have e1 : ([2, 6, 6, 1] : List Int)[(1 : Int).toNat]? = some 6 := by decide
  have e2 : ([2, 6, 6, 1] : List Int)[((1 : Int) + 1).toNat]? = some 6 := by decide
  rw [e1] at hx; rw [e2] at hy
  cases hx; cases hy
  exact h

/-! ## Claim C4: the driver -/

theorem assigned_map_some (l : List Int) : assigned (l.map some) = some l := by
  induction l with
  | nil => rfl
  | cons x xs ih => simp [assigned, ih]

theorem readCells_in_range :
    ∀ (n : Nat) (input : List Int), n ≤ input.length →
      (∀ x ∈ input, INT_MIN ≤ x ∧ x ≤ INT_MAX) →
      readCells n input false = (input.take n).map some := by
  intro n
  induction n with
  | zero => intro input _ _; rfl
  | succ n ih =>
    intro input hlen hr
    cases input with
    | nil => simp at hlen
    | cons t ts =>
      obtain ⟨h1, h2⟩ := hr t (List.mem_cons_self _ _)
      rw [readCells, if_neg (not_lt.2 h2), if_neg (not_lt.2 h1),
        ih ts (by simpa using hlen) (fun x hx => hr x (List.mem_cons_of_mem _ hx))]
      rfl

/-- C4, as stated, fails: the ten integers `0, ..., 0, 3000000000` have
greatest element `3000000000`, but `cin >>` stores `2147483647` in the last
cell and the driver prints `Maximum element: 2147483647`. -/
theorem main_prints_int_max_for_large_input :
    scanMax [0, 0, 0, 0, 0, 0, 0, 0, 0, 3000000000] = some 3000000000 ∧
      main 10 [0, 0, 0, 0, 0, 0, 0, 0, 0, 3000000000]
        = .ok "Enter 10 elements of the array:\nMaximum element: 2147483647\nMinimum element: 0\n" :=
  ⟨by decide, rfl⟩

/-- C4, amended: for every input of ten integers, each within the range of
`int`, the driver calls `minmax` on the range `[0, 9]` of the array holding
them and writes, after its prompt, the line `Maximum element: M` followed by
the line `Minimum element: m`, where `M` and `m` are the greatest and the
least of the ten inputs; for the input `[5, 7, 2, 9, 1, 8, 3, 6, 4, 0]` the
lines are `Maximum element: 9` and `Minimum element: 0`. -/
theorem main_prints_max_then_min (fuel : Nat) (input : List Int)
    (h : input.length = 10) (hr : ∀ x ∈ input, INT_MIN ≤ x ∧ x ≤ INT_MAX)
    (hf : 9 < fuel) :
    (∃ m M, scanMin input = some m ∧ scanMax input = some M ∧
        (∀ x ∈ input, m ≤ x ∧ x ≤ M) ∧ m ∈ input ∧ M ∈ input ∧
        minmax fuel input 0 9 { min := none, max := none }
          = .ok (input, { min := some m, max := some M }) ∧
        main fuel input = .ok (prompt ++ "Maximum element: " ++ toString M ++ "\n"
          ++ "Minimum element: " ++ toString m ++ "\n")) ∧
      main fuel [5, 7, 2, 9, 1, 8, 3, 6, 4, 0]
        = .ok "Enter 10 elements of the array:\nMaximum element: 9\nMinimum element: 0\n" := by
  have key : ∀ inp : List Int, inp.length = 10 →
      (∀ x ∈ inp, INT_MIN ≤ x ∧ x ≤ INT_MAX) →
      ∃ m M, scanMin inp = some m ∧ scanMax inp = some M ∧
        minmax fuel inp 0 9 { min := none, max := none }
          = .ok (inp, { min := some m, max := some M }) ∧
        main fuel inp = .ok (prompt ++ "Maximum element: " ++ toString M ++ "\n"
          ++ "Minimum element: " ++ toString m ++ "\n") := by
    intro inp hl hrange
    have hne : inp ≠ [] := by
      intro e; subst e; simp at hl
    obtain ⟨m, M, h1, h2, h3⟩ :=
      minmax_scan fuel inp 0 9 { min := none, max := none } (by decide) (by decide)
        (by rw [hl]; decide) (by decide) (by simpa using hf)
    have hs : slice inp 0 9 = inp := by
      have := slice_full inp hne
      rw [hl] at this
      exact this
    rw [hs] at h1 h2
    refine ⟨m, M, h1, h2, h3, ?_⟩
    have ht : inp.take 10 = inp := by
      rw [← hl]; exact List.take_length inp
    unfold main
    rw [readCells_in_range 10 inp (by omega) hrange, ht, assigned_map_some]
    simp only [h3]
    rfl
  refine ⟨?_, ?_⟩
  · obtain ⟨m, M, h1, h2, h3, h4⟩ := key input h hr
    refine ⟨m, M, h1, h2, ?_, (scanMin_spec _ _ h1).1, (scanMax_spec _ _ h2).1, h3, h4⟩
    exact fun x hx => ⟨(scanMin_spec _ _ h1).2 x hx, (scanMax_spec _ _ h2).2 x hx⟩
  · obtain ⟨m, M, h1, h2, _, h4⟩ := key [5, 7, 2, 9, 1, 8, 3, 6, 4, 0] rfl (by decide)
    have e1 : scanMin [5, 7, 2, 9, 1, 8, 3, 6, 4, 0] = some 0 := by decide
    have e2 : scanMax [5, 7, 2, 9, 1, 8, 3, 6, 4, 0] = some 9 := by decide
    rw [e1] at h1; rw [e2] at h2
    cases h1; cases h2
    rw [h4]
    rfl

theorem main_prints_max_then_min_witness :
    main 10 [3, -4, 12, 0, 7, 7, -9, 5, 1, 2]
      = .ok "Enter 10 elements of the array:\nMaximum element: 12\nMinimum element: -9\n" := by
  obtain ⟨m, M, h1, h2, _, _, _, _, h4⟩ :=
    (main_prints_max_then_min 10 [3, -4, 12, 0, 7, 7, -9, 5, 1, 2] rfl (by decide)
      (by decide)).1
  have e1 : scanMin [3, -4, 12, 0, 7, 7, -9, 5, 1, 2] = some (-9) := by decide
  have e2 : scanMax [3, -4, 12, 0, 7, 7, -9, 5, 1, 2] = some 12 := by decide
  rw [e1] at h1; rw [e2] at h2
  cases h1; cases h2
  rw [h4]
  rfl

/-! ## Claim C5: constant ranges -/

/-- C5, as stated, fails: every element of the valid range `[2^30, 2^30 + 2]`
of the all-zero array of `2^30 + 4` cells equals `0`, but the call never
returns, whatever the fuel. -/
theorem constant_range_fails_beyond_two_pow_30 :
    ((0 : Int) ≤ 2 ^ 30 ∧ (2 ^ 30 : Int) ≤ 2 ^ 30 + 2 ∧
        (2 ^ 30 + 2 : Int) < hugeArray.length) ∧
      (∀ i : Int, 2 ^ 30 ≤ i → i ≤ 2 ^ 30 + 2 → readAt hugeArray i = .ok 0) ∧
      ∀ fuel out, minmax fuel hugeArray (2 ^ 30) (2 ^ 30 + 2) out = .error .outOfFuel := by
  refine ⟨hugeArray_valid, ?_, fun fuel out => minmax_overflow_three fuel hugeArray out⟩
  intro i h1 h2
  exact readAt_hugeArray i (by norm_num at h1; omega) (by norm_num at h2 ⊢; omega)

/-- C5, amended: on every valid range with `high ≤ 2^30 - 1` all of whose
elements equal one value `v`, the procedure returns `(min, max) = (v, v)`
(with fuel above `high - low`); in particular `[4, 4, 4]` on the range
`(0, 2)` gives `(4, 4)`. -/
theorem minmax_constant_range (fuel : Nat) (a : List Int) (low high v : Int) (out : Outs)
    (h0 : 0 ≤ low) (hle : low ≤ high) (hlen : high < a.length)
    (hb : high ≤ 2 ^ 30 - 1) (hf : (high - low).toNat < fuel)
    (hv : ∀ i, low ≤ i → i ≤ high → readAt a i = .ok v) :
    minmax fuel a low high out = .ok (a, { min := some v, max := some v }) ∧
      minmax (fuel + 2) [4, 4, 4] 0 2 out
        = .ok ([4, 4, 4], { min := some 4, max := some 4 }) := by
  have key : ∀ (g : Nat) (b : List Int) (l h w : Int), 0 ≤ l → l ≤ h → h < b.length →
      h ≤ 2 ^ 30 - 1 → (h - l).toNat < g →
      (∀ i, l ≤ i → i ≤ h → readAt b i = .ok w) →
      minmax g b l h out = .ok (b, { min := some w, max := some w }) := by
    intro g b l h w hl0 hlh hhb hhh hg hw
    obtain ⟨mn, mx, h1, h2, h3⟩ := minmax_scan g b l h out hl0 hlh hhb hhh hg
    obtain ⟨i, hi1, hi2, hi3⟩ := (mem_slice b l h mn hl0 hlh).1 (scanMin_spec _ _ h1).1
    obtain ⟨j, hj1, hj2, hj3⟩ := (mem_slice b l h mx hl0 hlh).1 (scanMax_spec _ _ h2).1
    rw [hw i hi1 hi2] at hi3
    rw [hw j hj1 hj2] at hj3
    cases hi3; cases hj3
    exact h3
  refine ⟨key fuel a low high v h0 hle hlen hb hf hv, ?_⟩
  refine key (fuel + 2) [4, 4, 4] 0 2 4 (by decide) (by decide) (by decide) (by decide)
    ?_ ?_
  · have e : ((2 : Int) - 0).toNat = 2 := by decide
    rw [e]
    omega
  · intro i hi1 hi2
    have : i = 0 ∨ i = 1 ∨ i = 2 := by omega
    rcases this with rfl | rfl | rfl <;> rfl

theorem minmax_constant_range_witness :
    minmax 4 [1, 7, 7, 7, 7, 2] 1 4 { min := none, max := none }
      = .ok ([1, 7, 7, 7, 7, 2], { min := some 7, max := some 7 }) := by
  refine (minmax_constant_range 4 [1, 7, 7, 7, 7, 2] 1 4 7 { min := none, max := none }
    (by decide) (by decide) (by decide) (by decide) (by decide) ?_).1
  intro i hi1 hi2
  have : i = 1 ∨ i = 2 ∨ i = 3 ∨ i = 4 := by omega
  rcases this with rfl | rfl | rfl | rfl <;> rfl

/-! ## Claim C6: every dereference is inside the range -/

/-- C6: under the precondition `0 ≤ low ≤ high < length a` (with `high` a
value of type `int`), the out-of-bounds branch of a read is never reached,
whatever the fuel; and the indices dereferenced by a call that returns, in
the call itself and in all its recursive calls, are exactly those of
`[low, high]`, each in bounds with a successful read.  The call does return
when `high ≤ 2^30 - 1` and the fuel exceeds `high - low`. -/
theorem minmax_reads_in_bounds (fuel : Nat) (a : List Int) (low high : Int) (out : Outs)
    (h0 : 0 ≤ low) (hle : low ≤ high) (hlen : high < a.length) (hint : high ≤ INT_MAX) :
    minmaxRun fuel a low high out ≠ .error .outOfBounds ∧
      minmax fuel a low high out ≠ .error .outOfBounds ∧
      (∀ r, minmaxRun fuel a low high out = .ok r →
        (∀ i, i ∈ r.reads ↔ low ≤ i ∧ i ≤ high) ∧
        (∀ i ∈ r.reads, 0 ≤ i ∧ i < a.length ∧ ∃ v, readAt a i = .ok v)) ∧
      (high ≤ 2 ^ 30 - 1 → (high - low).toNat < fuel →
        ∃ r, minmaxRun fuel a low high out = .ok r) := by
  have hint2 : high ≤ 2147483647 := by
    unfold INT_MAX at hint; norm_num at hint; omega
  have hcases := minmaxRun_spec fuel a low high out h0 hle hlen hint2
  refine ⟨?_, ?_, ?_, ?_⟩
  · rcases hcases with ⟨r, hr, _⟩ | ⟨hr, _⟩
    · rw [hr]; simp
    · rw [hr]; simp
  · rcases hcases with ⟨r, hr, _⟩ | ⟨hr, _⟩
    · rw [minmax_eq_ok fuel a low high out r hr]; simp
    · rw [minmax_eq_error fuel a low high out _ hr]; simp
  · intro r hr
    have sp := minmaxRun_ok_spec fuel a low high out r h0 hle hlen hint2 hr
    refine ⟨sp.reads_iff, ?_⟩
    intro i hi
    obtain ⟨h1, h2⟩ := (sp.reads_iff i).1 hi
    obtain ⟨v, _, hv⟩ := readAt_valid a i (by omega) (by omega)
    exact ⟨by omega, by omega, v, hv⟩
  · intro hb hf
    obtain ⟨r, hr, _⟩ := minmaxRun_returns fuel a low high out h0 hle hlen
      (by norm_num at hb; omega) hf
    exact ⟨r, hr⟩

theorem minmax_reads_in_bounds_witness :
    ∃ r, minmaxRun 5 [9, 5, 7, 2, 9, 1, 3] 1 5 { min := none, max := none } = .ok r ∧
      ∀ i, i ∈ r.reads ↔ 1 ≤ i ∧ i ≤ 5 := by
  obtain ⟨_, _, h3, h4⟩ :=
    minmax_reads_in_bounds 5 [9, 5, 7, 2, 9, 1, 3] 1 5 { min := none, max := none }
      (by decide) (by decide) (by decide) (by decide)
  obtain ⟨r, hr⟩ := h4 (by decide) (by decide)
  exact ⟨r, hr, (h3 r hr).1⟩

/-! ## Claim C7: frame and determinism -/

theorem minmax_out_irrel (fuel : Nat) (a : List Int) (low high : Int) (out out2 : Outs) :
    minmax fuel a low high out = minmax fuel a low high out2 := by
  unfold minmax
  rw [minmaxRun_out_irrel fuel a low high out out2]

theorem minmax_array_unchanged (fuel : Nat) (a : List Int) (low high : Int) (out : Outs)
    (p : List Int × Outs) (h : minmax fuel a low high out = .ok p) : p.1 = a := by
  obtain ⟨r, hr, rfl⟩ := minmax_ok_inv fuel a low high out p h
  rcases minmaxRun_shape fuel a low high out with ⟨r2, _, _, h2, hm, _⟩ | h2 | h2
  · rw [hr] at h2
    cases h2
    exact hm
  · rw [hr] at h2; cases h2
  · rw [hr] at h2; cases h2

/-- C7: a call of `minmax` that returns leaves the array as it was, and a
second call on the same array and range returns the identical pair whatever
the output variables held before it (in particular when they hold the first
result) and however much more fuel it is given; more generally the outcome
of a call never depends on the prior content of the output variables. -/
theorem minmax_frame (fuel : Nat) (a : List Int) (low high : Int) (out : Outs) :
    (∀ r, minmax fuel a low high out = .ok r →
        r.1 = a ∧ minmax fuel r.1 low high r.2 = .ok r ∧
          (∀ out2, minmax fuel r.1 low high out2 = .ok r) ∧
          (∀ k out2, minmax (fuel + k) r.1 low high out2 = .ok r)) ∧
      (∀ out2, minmax fuel a low high out2 = minmax fuel a low high out) := by
  refine ⟨?_, fun out2 => minmax_out_irrel fuel a low high out2 out⟩
  intro r hr
  have ha : r.1 = a := minmax_array_unchanged fuel a low high out r hr
  have hall : ∀ out2, minmax fuel r.1 low high out2 = .ok r := by
    intro out2
    rw [ha, minmax_out_irrel fuel a low high out2 out]
    exact hr
  refine ⟨ha, hall r.2, hall, ?_⟩
  intro k out2
  obtain ⟨q, hq, hrq⟩ := minmax_ok_inv fuel r.1 low high out2 r (hall out2)
  rw [minmax_eq_ok _ _ _ _ _ _ (minmaxRun_fuel_mono fuel k r.1 low high out2 q hq)]
  rw [hrq]

theorem minmax_frame_witness :
    minmax 4 [6, 2, 8, 4] 0 3 { min := some 2, max := some 8 }
        = .ok ([6, 2, 8, 4], { min := some 2, max := some 8 }) ∧
      minmax 4 [6, 2, 8, 4] 0 3 { min := some 100, max := none }
        = .ok ([6, 2, 8, 4], { min := some 2, max := some 8 }) := by
  have h0 : minmax 4 [6, 2, 8, 4] 0 3 { min := none, max := none }
      = .ok ([6, 2, 8, 4], { min := some 2, max := some 8 }) := rfl
  obtain ⟨_, h1, h2, _⟩ :=
    (minmax_frame 4 [6, 2, 8, 4] 0 3 { min := none, max := none }).1 _ h0
  exact ⟨h1, h2 _⟩

/-! ## Claim C8: the merge at the midpoint -/

/-- C8, as stated, fails: on the valid range `[2^30, 2^30 + 2]` the midpoint
computed by the code is `-1073741823`, not `floor((low + high) / 2) = 2^30 + 1`;
the calls on `[low, 2^30 + 1]` and `[2^30 + 2, high]` return `(0, 0)`, but
the call on `[low, high]` never returns, whatever the fuel. -/
theorem merge_at_mid_fails_beyond_two_pow_30 :
    ((0 : Int) ≤ 2 ^ 30 ∧ (2 ^ 30 : Int) ≤ 2 ^ 30 + 2 ∧
        (2 ^ 30 + 2 : Int) < hugeArray.length) ∧
      mid32 (2 ^ 30) (2 ^ 30 + 2) = -1073741823 ∧
      ((2 ^ 30 : Int) + (2 ^ 30 + 2)) / 2 = 2 ^ 30 + 1 ∧
      minmax 1 hugeArray (2 ^ 30) (2 ^ 30 + 1) { min := none, max := none }
        = .ok (hugeArray, { min := some 0, max := some 0 }) ∧
      minmax 1 hugeArray (2 ^ 30 + 1 + 1) (2 ^ 30 + 2) { min := none, max := none }
        = .ok (hugeArray, { min := some 0, max := some 0 }) ∧
      ∀ fuel out, minmax fuel hugeArray (2 ^ 30) (2 ^ 30 + 2) out = .error .outOfFuel := by
  refine ⟨hugeArray_valid, by decide, by decide, ?_, ?_,
    fun fuel out => minmax_overflow_three fuel hugeArray out⟩
  · exact minmax_pair_ok 0 hugeArray _ _ _ 0 0 (by norm_num)
      (readAt_hugeArray _ (by norm_num) (by norm_num))
      (readAt_hugeArray _ (by norm_num) (by norm_num))
  · have e : ((2 : Int) ^ 30 + 1 + 1) = 2 ^ 30 + 2 := by norm_num
    rw [e]
    have h : minmaxRun 1 hugeArray (2 ^ 30 + 2) (2 ^ 30 + 2) { min := none, max := none }
        = .ok { mem := hugeArray, out := { min := some 0, max := some 0 },
                reads := [2 ^ 30 + 2], leaves := [(2 ^ 30 + 2, 2 ^ 30 + 2)],
                comparisons := 0, depth := 0 } := by
      rw [minmaxRun_single, readAt_hugeArray _ (by norm_num) (by norm_num)]
      rfl
    rw [minmax_eq_ok _ _ _ _ _ _ h]

/-- C8, amended: on every valid range with `high > low + 1` and
`high ≤ 2^30 - 1` the split point computed by the code is
`mid = floor((low + high) / 2)`, both halves return pairs `L` and `R`, and
`minmax a low high` returns `(min L.min R.min, max L.max R.max)` (with fuel
above `high - low`): the two conditional assignments on the outputs of the
first half compute exactly that merge. -/
theorem minmax_merges_halves (fuel : Nat) (a : List Int) (low high : Int) (out : Outs)
    (h0 : 0 ≤ low) (hlt : low + 1 < high) (hlen : high < a.length)
    (hb : high ≤ 2 ^ 30 - 1) (hf : (high - low).toNat < fuel) :
    mid32 low high = (low + high) / 2 ∧
      ∃ lmin lmax rmin rmax,
        (∀ o, minmax fuel a low ((low + high) / 2) o
          = .ok (a, { min := some lmin, max := some lmax })) ∧
        (∀ o, minmax fuel a ((low + high) / 2 + 1) high o
          = .ok (a, { min := some rmin, max := some rmax })) ∧
        minmax fuel a low high out
          = .ok (a, { min := some (min lmin rmin), max := some (max lmax rmax) }) := by
  have hb2 : high ≤ 1073741823 := by norm_num at hb; omega
  obtain ⟨hmid, hm1, hm2⟩ := mid32_bounds low high h0 hlt (by omega)
  refine ⟨hmid, ?_⟩
  rw [← hmid]
  obtain ⟨lmin, lmax, hl1, hl2, hL⟩ :=
    minmax_scan fuel a low (mid32 low high) out h0 (by omega) (by omega)
      (by norm_num; omega) (by omega)
  obtain ⟨rmin, rmax, hr1, hr2, hR⟩ :=
    minmax_scan fuel a (mid32 low high + 1) high out (by omega) (by omega) hlen hb
      (by omega)
  obtain ⟨mn, mx, hc1, hc2, hC⟩ :=
    minmax_scan fuel a low high out h0 (by omega) hlen hb hf
  rw [slice_split a low (mid32 low high) high h0 (by omega) (by omega)] at hc1 hc2
  rw [scanMin_append _ _ _ _ hl1 hr1] at hc1
  rw [scanMax_append _ _ _ _ hl2 hr2] at hc2
  cases hc1; cases hc2
  refine ⟨lmin, lmax, rmin, rmax, ?_, ?_, hC⟩
  · intro o
    rw [minmax_out_irrel fuel a low (mid32 low high) o out]; exact hL
  · intro o
    rw [minmax_out_irrel fuel a (mid32 low high + 1) high o out]; exact hR

theorem minmax_merges_halves_witness :
    minmax 5 [7, 3, 5, 9, 1] 0 4 { min := none, max := none }
      = .ok ([7, 3, 5, 9, 1], { min := some (min 3 1), max := some (max 7 9) }) := by
  obtain ⟨_, lmin, lmax, rmin, rmax, hL, hR, h⟩ :=
    minmax_merges_halves 5 [7, 3, 5, 9, 1] 0 4 { min := none, max := none }
      (by decide) (by decide) (by decide) (by decide) (by decide)
  have eL : minmax 5 [7, 3, 5, 9, 1] 0 (((0 : Int) + 4) / 2) { min := none, max := none }
      = .ok ([7, 3, 5, 9, 1], { min := some 3, max := some 7 }) := rfl
  have eR : minmax 5 [7, 3, 5, 9, 1] (((0 : Int) + 4) / 2 + 1) 4
      { min := none, max := none }
      = .ok ([7, 3, 5, 9, 1], { min := some 1, max := some 9 }) := rfl
  have hL2 := hL { min := none, max := none }
  have hR2 := hR { min := none, max := none }
  rw [eL] at hL2
  rw [eR] at hR2
  cases hL2; cases hR2
  exact h

/-! ## Claim C9: the split covers every index exactly once -/

/-- C9, as stated, fails: for `low = 2^30` and `high = 2^30 + 2` the
midpoint computed by the code is `-1073741823 < low`, so the first recursive
range `[low, mid]` is empty, and the recursion reaches no base case: the
call never returns, whatever the array and the fuel. -/
theorem split_fails_beyond_two_pow_30 :
    (0 : Int) ≤ 2 ^ 30 ∧ (2 ^ 30 + 1 : Int) < 2 ^ 30 + 2 ∧
      mid32 (2 ^ 30) (2 ^ 30 + 2) = -1073741823 ∧
      mid32 (2 ^ 30) (2 ^ 30 + 2) < 2 ^ 30 ∧
      ∀ fuel a out, minmaxRun fuel a (2 ^ 30) (2 ^ 30 + 2) out = .error .outOfFuel :=
  ⟨by decide, by decide, by decide, by decide, fun fuel a out =>
    minmaxRun_overflow fuel a _ _ out (by norm_num) (by norm_num) (by norm_num)⟩

/-- C9, amended: for every `0 ≤ low` and `high > low + 1` with
`high ≤ 2^30 - 1` the split point of the code is
`mid = floor((low + high) / 2)` with `low ≤ mid < high`; the sub-ranges
`[low, mid]` and `[mid + 1, high]` are non-empty, disjoint and together
contain exactly the indices of `[low, high]`; and the base-case ranges
reached by the whole recursion (each of one or two indices), concatenated
left to right, list `low, low + 1, ..., high` with no index skipped or
repeated. -/
theorem split_covers_range_once (low high : Int) (h0 : 0 ≤ low) (hlt : low + 1 < high)
    (hb : high ≤ 2 ^ 30 - 1) :
    mid32 low high = (low + high) / 2 ∧
      low ≤ (low + high) / 2 ∧ (low + high) / 2 < high ∧
      (∀ i, (low ≤ i ∧ i ≤ high) ↔
        ((low ≤ i ∧ i ≤ (low + high) / 2) ∨ ((low + high) / 2 + 1 ≤ i ∧ i ≤ high))) ∧
      (∀ i, ¬ ((low ≤ i ∧ i ≤ (low + high) / 2) ∧ ((low + high) / 2 + 1 ≤ i ∧ i ≤ high))) ∧
      indexRange low high
        = indexRange low ((low + high) / 2) ++ indexRange ((low + high) / 2 + 1) high ∧
      (indexRange low high).Nodup ∧
      (∀ i, i ∈ indexRange low high ↔ low ≤ i ∧ i ≤ high) ∧
      (∀ (fuel : Nat) (a : List Int) (out : Outs), high < a.length →
        (high - low).toNat < fuel →
        ∃ r, minmaxRun fuel a low high out = .ok r ∧
          (∀ p ∈ r.leaves, p.1 = p.2 ∨ p.1 = p.2 - 1) ∧
          r.leaves.flatMap (fun p => indexRange p.1 p.2) = indexRange low high) := by
  have hb2 : high ≤ 1073741823 := by norm_num at hb; omega
  obtain ⟨hmid, hm1, hm2⟩ := mid32_bounds low high h0 hlt (by omega)
  rw [hmid] at hm1 hm2
  refine ⟨hmid, by omega, by omega, fun i => by omega, fun i => by omega,
    indexRange_append low _ high (by omega) (by omega), ?_, mem_indexRange low high, ?_⟩
  · unfold indexRange
    refine List.Nodup.map ?_ (List.nodup_range _)
    intro x y hxy
    simpa using hxy
  · intro fuel a out hlen hf
    obtain ⟨r, hr, sp⟩ := minmaxRun_returns fuel a low high out h0 (by omega) hlen hb2 hf
    exact ⟨r, hr, sp.leaves_base, sp.leaves_flat⟩

theorem split_covers_range_once_witness :
    mid32 3 9 = 6 ∧
      ∃ r, minmaxRun 7 [0, 0, 0, 0, 0, 0, 0, 0, 0, 0] 3 9 { min := none, max := none } = .ok r ∧
        r.leaves.flatMap (fun p => indexRange p.1 p.2) = [3, 4, 5, 6, 7, 8, 9] := by
  obtain ⟨h1, _, _, _, _, _, _, _, h2⟩ :=
    split_covers_range_once 3 9 (by decide) (by decide) (by decide)
  obtain ⟨r, hr, _, hf⟩ := h2 7 [0, 0, 0, 0, 0, 0, 0, 0, 0, 0] { min := none, max := none }
    (by decide) (by decide)
  refine ⟨?_, r, hr, ?_⟩
  · rw [h1]; decide
  · rw [hf]; decide

/-! ## Claim C10: termination -/

/-- C10, as stated, fails: `0 ≤ 2^30 ≤ 2^30 + 2`, a valid range of an array
of `2^30 + 4` cells, but there `low + high` overflows and the recursion never
terminates: the call runs out of every fuel. -/
theorem recursion_diverges_beyond_two_pow_30 :
    ((0 : Int) ≤ 2 ^ 30 ∧ (2 ^ 30 : Int) ≤ 2 ^ 30 + 2 ∧
        (2 ^ 30 + 2 : Int) < hugeArray.length) ∧
      (∀ fuel a out, minmaxRun fuel a (2 ^ 30) (2 ^ 30 + 2) out = .error .outOfFuel) ∧
      ∀ fuel out, minmax fuel hugeArray (2 ^ 30) (2 ^ 30 + 2) out = .error .outOfFuel :=
  ⟨hugeArray_valid,
    fun fuel a out =>
      minmaxRun_overflow fuel a _ _ out (by norm_num) (by norm_num) (by norm_num),
    fun fuel out => minmax_overflow_three fuel hugeArray out⟩

/-- C10, amended: for every `0 ≤ low ≤ high` with `high ≤ 2^30 - 1` the
recursion terminates.  In the recursive case both calls are made on ranges
`[low, mid]` and `[mid + 1, high]` that are again non-empty and strictly
shorter than `[low, high]`; a call with fuel above `high - low` never runs out
of fuel, and with more fuel returns the same result; no call reads an
unassigned variable; whenever a call returns, both `min` and `max` have been
assigned; and it does return when the range is within the array. -/
theorem minmax_terminates (fuel : Nat) (a : List Int) (low high : Int) (out : Outs)
    (h0 : 0 ≤ low) (hle : low ≤ high) (hb : high ≤ 2 ^ 30 - 1)
    (hf : (high - low).toNat < fuel) :
    (low + 1 < high →
        low ≤ mid32 low high ∧ mid32 low high + 1 ≤ high ∧
        mid32 low high - low < high - low ∧ high - (mid32 low high + 1) < high - low) ∧
      minmax fuel a low high out ≠ .error .outOfFuel ∧
      minmax fuel a low high out ≠ .error .uninitialised ∧
      (∀ r, minmax fuel a low high out = .ok r →
        (∃ mn mx, r.2 = { min := some mn, max := some mx }) ∧
        ∀ k, minmax (fuel + k) a low high out = .ok r) ∧
      (high < a.length →
        ∃ mn mx, minmax fuel a low high out
          = .ok (a, { min := some mn, max := some mx })) := by
  have hb2 : high ≤ 1073741823 := by norm_num at hb; omega
  refine ⟨?_, ?_, ?_, ?_, ?_⟩
  · intro hlt
    obtain ⟨_, hm1, hm2⟩ := mid32_bounds low high h0 hlt (by omega)
    omega
  · have ht := minmaxRun_terminates fuel a low high out h0 hle hb2 hf
    rcases minmaxRun_shape fuel a low high out with ⟨r, _, _, h, _, _⟩ | h | h
    · rw [minmax_eq_ok fuel a low high out r h]; simp
    · rw [minmax_eq_error fuel a low high out _ h]; simp
    · exact absurd h ht
  · rcases minmaxRun_shape fuel a low high out with ⟨r, _, _, h, _, _⟩ | h | h
    · rw [minmax_eq_ok fuel a low high out r h]; simp
    · rw [minmax_eq_error fuel a low high out _ h]; simp
    · rw [minmax_eq_error fuel a low high out _ h]; simp
  · intro p hp
    obtain ⟨r, hr, rfl⟩ := minmax_ok_inv fuel a low high out p hp
    refine ⟨?_, fun k => ?_⟩
    · rcases minmaxRun_shape fuel a low high out with ⟨r2, mn, mx, h, _, ho⟩ | h | h
      · rw [hr] at h
        cases h
        exact ⟨mn, mx, ho⟩
      · rw [hr] at h; cases h
      · rw [hr] at h; cases h
    · exact minmax_eq_ok _ a low high out r (minmaxRun_fuel_mono fuel k a low high out r hr)
  · intro hlen
    obtain ⟨mn, mx, _, _, h3⟩ := minmax_scan fuel a low high out h0 hle hlen hb hf
    exact ⟨mn, mx, h3⟩

theorem minmax_terminates_witness :
    (mid32 0 9 = 4 ∧ (4 : Int) - 0 < 9 - 0 ∧ (9 : Int) - (4 + 1) < 9 - 0) ∧
      ∃ mn mx, minmax 10 [5, 7, 2, 9, 1, 8, 3, 6, 4, 0] 0 9 { min := none, max := none }
        = .ok ([5, 7, 2, 9, 1, 8, 3, 6, 4, 0], { min := some mn, max := some mx }) := by
  obtain ⟨h1, _, _, _, h5⟩ :=
    minmax_terminates 10 [5, 7, 2, 9, 1, 8, 3, 6, 4, 0] 0 9 { min := none, max := none }
      (by decide) (by decide) (by decide) (by decide)
  have hm : mid32 0 9 = 4 := by decide
  obtain ⟨_, _, h3, h4⟩ := h1 (by decide)
  rw [hm] at h3 h4
  exact ⟨⟨hm, h3, h4⟩, h5 (by decide)⟩

/-! ## Claims C11 and C16: number of comparisons -/

/-- C11, as stated, fails: on the valid range `[0, 20]` of `n = 21` elements
a run makes 32 comparisons, more than `3n/2 = 31.5`; and on the valid range
`[2^30, 2^30 + 2]` no run completes, whatever the fuel. -/
theorem comparisons_exceed_three_halves :
    ((0 : Int) ≤ 0 ∧ (0 : Int) ≤ 20 ∧ (20 : Int) < (List.replicate 21 (0 : Int)).length ∧
        ∃ r, minmaxRun 21 (List.replicate 21 0) 0 20 { min := none, max := none } = .ok r ∧
          r.comparisons = 32 ∧
          ¬ (2 * (r.comparisons : Int) ≤ 3 * (20 - 0 + 1))) ∧
      (((0 : Int) ≤ 2 ^ 30 ∧ (2 ^ 30 : Int) ≤ 2 ^ 30 + 2 ∧
          (2 ^ 30 + 2 : Int) < hugeArray.length) ∧
        ∀ fuel out, minmaxRun fuel hugeArray (2 ^ 30) (2 ^ 30 + 2) out
          = .error .outOfFuel) :=
  ⟨⟨by decide, by decide, by decide, _, rfl, rfl, by decide⟩,
    hugeArray_valid,
    fun fuel out =>
      minmaxRun_overflow fuel hugeArray _ _ out (by norm_num) (by norm_num) (by norm_num)⟩

/-- C11, amended: on every valid range of `n = high - low + 1` elements with
`high ≤ 2^30 - 1`, a run (with fuel above `high - low`) returns having made
`0` element comparisons when `n = 1` and at most `5n/3 - 2` when `n ≥ 2`
(stated as `3 * c + 6 ≤ 5 * n`). -/
theorem comparisons_at_most_five_thirds (fuel : Nat) (a : List Int) (low high : Int)
    (out : Outs) (h0 : 0 ≤ low) (hle : low ≤ high) (hlen : high < a.length)
    (hb : high ≤ 2 ^ 30 - 1) (hf : (high - low).toNat < fuel) :
    ∃ r, minmaxRun fuel a low high out = .ok r ∧
      (low = high → r.comparisons = 0) ∧
      (low < high → 3 * (r.comparisons : Int) + 6 ≤ 5 * (high - low + 1)) := by
  obtain ⟨r, hr, sp⟩ := minmaxRun_returns fuel a low high out h0 hle hlen
    (by norm_num at hb; omega) hf
  exact ⟨r, hr, sp.cmp_single, sp.cmp_bound⟩

theorem comparisons_at_most_five_thirds_witness :
    ∃ r, minmaxRun 3 [4, 1, 3] 0 2 { min := none, max := none } = .ok r ∧
      3 * (r.comparisons : Int) + 6 ≤ 5 * (2 - 0 + 1) := by
  obtain ⟨r, hr, _, h2⟩ :=
    comparisons_at_most_five_thirds 3 [4, 1, 3] 0 2 { min := none, max := none }
      (by decide) (by decide) (by decide) (by decide) (by decide)
  exact ⟨r, hr, h2 (by decide)⟩

/-- C16, as stated, fails: `[2^30, 2^30 + 3]` is a valid range of `n = 4 = 2^2`
elements of an array of `2^30 + 4` cells, but no run on it completes,
whatever the fuel, so none makes `3n/2 - 2 = 4` comparisons. -/
theorem power_of_two_count_fails_beyond_two_pow_30 :
    ((0 : Int) ≤ 2 ^ 30 ∧ (2 ^ 30 : Int) ≤ 2 ^ 30 + 3 ∧
        (2 ^ 30 + 3 : Int) < hugeArray.length) ∧
      ((2 ^ 30 + 3 : Int) - 2 ^ 30 + 1 = 2 ^ 2) ∧
      ∀ fuel out, minmaxRun fuel hugeArray (2 ^ 30) (2 ^ 30 + 3) out
        = .error .outOfFuel := by
  refine ⟨?_, by norm_num, fun fuel out =>
    minmaxRun_overflow fuel hugeArray _ _ out (by norm_num) (by norm_num) (by norm_num)⟩
  rw [hugeArray_length]
  norm_num

/-- C16, amended: on every valid range with `high ≤ 2^30 - 1` whose length
`n = high - low + 1` is a power of two with `n ≥ 2`, a run (with fuel above
`high - low`) returns having made exactly `3n/2 - 2` element comparisons. -/
theorem comparisons_power_of_two (fuel k : Nat) (a : List Int) (low high : Int)
    (out : Outs) (h0 : 0 ≤ low) (hlen : high < a.length) (hb : high ≤ 2 ^ 30 - 1)
    (hk : 1 ≤ k) (hn : high - low + 1 = 2 ^ k) (hf : (high - low).toNat < fuel) :
    ∃ r, minmaxRun fuel a low high out = .ok r ∧
      2 * r.comparisons + 4 = 3 * 2 ^ k ∧
      r.comparisons = 3 * 2 ^ k / 2 - 2 := by
  have hpos : (0 : Int) < 2 ^ k := by positivity
  obtain ⟨r, hr, sp⟩ := minmaxRun_returns fuel a low high out h0 (by omega) hlen
    (by norm_num at hb; omega) hf
  have h1 := sp.cmp_pow k hk hn
  exact ⟨r, hr, h1, by omega⟩

theorem comparisons_power_of_two_witness :
    ∃ r, minmaxRun 8 [0, 0, 5, 1, 4, 2, 8, 3, 7, 6] 2 9 { min := none, max := none }
        = .ok r ∧ r.comparisons = 10 := by
  obtain ⟨r, hr, _, h⟩ :=
    comparisons_power_of_two 8 3 [0, 0, 5, 1, 4, 2, 8, 3, 7, 6] 2 9
      { min := none, max := none } (by decide) (by decide) (by decide) (by decide)
      (by decide) (by decide)
  refine ⟨r, hr, ?_⟩
  rw [h]
  decide

/-! ## Claim C12: recursion depth -/

/-- C12, as stated, fails: on the valid range `[2^30, 2^30 + 2]` of `n = 3`
elements, `ceil(log2 n) = 2`, but the recursion is nested deeper than any
fuel: the call never returns. -/
theorem depth_unbounded_beyond_two_pow_30 :
    ((0 : Int) ≤ 2 ^ 30 ∧ (2 ^ 30 : Int) ≤ 2 ^ 30 + 2 ∧
        (2 ^ 30 + 2 : Int) < hugeArray.length) ∧
      Nat.clog 2 ((2 ^ 30 + 2 : Int) - 2 ^ 30 + 1).toNat = 2 ∧
      ∀ fuel out, minmaxRun fuel hugeArray (2 ^ 30) (2 ^ 30 + 2) out
        = .error .outOfFuel := by
  refine ⟨hugeArray_valid, ?_, fun fuel out =>
    minmaxRun_overflow fuel hugeArray _ _ out (by norm_num) (by norm_num) (by norm_num)⟩
  have e : ((2 ^ 30 + 2 : Int) - 2 ^ 30 + 1).toNat = 3 := by decide
  rw [e]
  simp [Nat.clog]

/-- C12, amended: on every valid range of `n = high - low + 1 ≥ 1` elements
with `high ≤ 2^30 - 1`, a run (with fuel above `high - low`) returns with a
recursion depth of at most `ceil(log2 n)`; the depth is `0` for `n ≤ 2` and
otherwise satisfies `2 ^ depth < n`. -/
theorem depth_at_most_log (fuel : Nat) (a : List Int) (low high : Int) (out : Outs)
    (h0 : 0 ≤ low) (hle : low ≤ high) (hlen : high < a.length)
    (hb : high ≤ 2 ^ 30 - 1) (hf : (high - low).toNat < fuel) :
    ∃ r, minmaxRun fuel a low high out = .ok r ∧
      r.depth ≤ Nat.clog 2 (high - low + 1).toNat ∧
      (high ≤ low + 1 → r.depth = 0) ∧
      (low < high → 2 ^ r.depth < (high - low + 1).toNat) := by
  obtain ⟨r, hr, sp⟩ := minmaxRun_returns fuel a low high out h0 hle hlen
    (by norm_num at hb; omega) hf
  have h2 : low < high → 2 ^ r.depth < (high - low + 1).toNat := by
    intro hlt
    have h := sp.depth_lt hlt
    have e : ((2 ^ r.depth : Nat) : Int) = (2 : Int) ^ r.depth := by
      push_cast; rfl
    omega
  refine ⟨r, hr, ?_, sp.depth_base, h2⟩
  rcases eq_or_lt_of_le hle with heq | hlt
  · rw [sp.depth_base (by omega)]
    exact Nat.zero_le _
  · exact le_of_lt ((Nat.pow_lt_iff_lt_clog (by norm_num)).1 (h2 hlt))

theorem depth_at_most_log_witness :
    ∃ r, minmaxRun 10 [5, 7, 2, 9, 1, 8, 3, 6, 4, 0] 0 9 { min := none, max := none }
        = .ok r ∧ r.depth ≤ 4 := by
  obtain ⟨r, hr, h, _, _⟩ :=
    depth_at_most_log 10 [5, 7, 2, 9, 1, 8, 3, 6, 4, 0] 0 9 { min := none, max := none }
      (by decide) (by decide) (by decide) (by decide) (by decide)
  have e : Nat.clog 2 ((9 : Int) - 0 + 1).toNat = 4 := by
    simp [Nat.clog]
  rw [e] at h
  exact ⟨r, hr, h⟩

/-! ## Claims C13 to C15: algebraic and relational properties -/

/-- C13, as stated, fails: on the valid range `[2^30, 2^30 + 2]` with the
split point `k = 2^30`, the calls on `[low, k]` and `[k + 1, high]` return
`(0, 0)`, but the call on `[low, high]` never returns, whatever the fuel. -/
theorem merge_any_split_fails_beyond_two_pow_30 :
    ((0 : Int) ≤ 2 ^ 30 ∧ (2 ^ 30 : Int) ≤ 2 ^ 30 + 2 ∧
        (2 ^ 30 + 2 : Int) < hugeArray.length) ∧
      ((2 ^ 30 : Int) ≤ 2 ^ 30 ∧ (2 ^ 30 : Int) < 2 ^ 30 + 2) ∧
      minmax 1 hugeArray (2 ^ 30) (2 ^ 30) { min := none, max := none }
        = .ok (hugeArray, { min := some 0, max := some 0 }) ∧
      minmax 1 hugeArray (2 ^ 30 + 1) (2 ^ 30 + 2) { min := none, max := none }
        = .ok (hugeArray, { min := some 0, max := some 0 }) ∧
      ∀ fuel out, minmax fuel hugeArray (2 ^ 30) (2 ^ 30 + 2) out = .error .outOfFuel := by
  refine ⟨hugeArray_valid, ⟨le_refl _, by norm_num⟩, ?_, ?_,
    fun fuel out => minmax_overflow_three fuel hugeArray out⟩
  · have h : minmaxRun 1 hugeArray (2 ^ 30) (2 ^ 30) { min := none, max := none }
        = .ok { mem := hugeArray, out := { min := some 0, max := some 0 },
                reads := [2 ^ 30], leaves := [(2 ^ 30, 2 ^ 30)],
                comparisons := 0, depth := 0 } := by
      rw [minmaxRun_single, readAt_hugeArray _ (by norm_num) (by norm_num)]
      rfl
    rw [minmax_eq_ok _ _ _ _ _ _ h]
  · exact minmax_pair_ok 0 hugeArray _ _ _ 0 0 (by norm_num)
      (readAt_hugeArray _ (by norm_num) (by norm_num))
      (readAt_hugeArray _ (by norm_num) (by norm_num))

/-- C13, amended: on every valid range with `high ≤ 2^30 - 1` and for every
split point `low ≤ k < high` (not only the midpoint), the calls on `[low, k]`
and `[k + 1, high]` return pairs `A` and `B`, and `minmax a low high` returns
`(min A.min B.min, max A.max B.max)` (with fuel above `high - low`). -/
theorem minmax_merge_any_split (fuel : Nat) (a : List Int) (low k high : Int) (out : Outs)
    (h0 : 0 ≤ low) (h1 : low ≤ k) (h2 : k < high) (hlen : high < a.length)
    (hb : high ≤ 2 ^ 30 - 1) (hf : (high - low).toNat < fuel) :
    ∃ amin amax bmin bmax,
      (∀ o, minmax fuel a low k o = .ok (a, { min := some amin, max := some amax })) ∧
      (∀ o, minmax fuel a (k + 1) high o
        = .ok (a, { min := some bmin, max := some bmax })) ∧
      minmax fuel a low high out
        = .ok (a, { min := some (min amin bmin), max := some (max amax bmax) }) := by
  have hb2 : high ≤ 1073741823 := by norm_num at hb; omega
  obtain ⟨amin, amax, ha1, ha2, hA⟩ :=
    minmax_scan fuel a low k out h0 h1 (by omega) (by norm_num; omega) (by omega)
  obtain ⟨bmin, bmax, hb1, hb3, hB⟩ :=
    minmax_scan fuel a (k + 1) high out (by omega) (by omega) hlen hb (by omega)
  obtain ⟨mn, mx, hc1, hc2, hC⟩ :=
    minmax_scan fuel a low high out h0 (by omega) hlen hb hf
  rw [slice_split a low k high h0 h1 h2] at hc1 hc2
  rw [scanMin_append _ _ _ _ ha1 hb1] at hc1
  rw [scanMax_append _ _ _ _ ha2 hb3] at hc2
  cases hc1; cases hc2
  refine ⟨amin, amax, bmin, bmax, ?_, ?_, hC⟩
  · intro o
    rw [minmax_out_irrel fuel a low k o out]; exact hA
  · intro o
    rw [minmax_out_irrel fuel a (k + 1) high o out]; exact hB

theorem minmax_merge_any_split_witness :
    minmax 5 [7, 3, 5, 9, 1] 0 4 { min := none, max := none }
      = .ok ([7, 3, 5, 9, 1], { min := some (min 7 1), max := some (max 7 9) }) := by
  obtain ⟨amin, amax, bmin, bmax, hA, hB, h⟩ :=
    minmax_merge_any_split 5 [7, 3, 5, 9, 1] 0 0 4 { min := none, max := none }
      (by decide) (by decide) (by decide) (by decide) (by decide) (by decide)
  have eA : minmax 5 [7, 3, 5, 9, 1] 0 0 { min := none, max := none }
      = .ok ([7, 3, 5, 9, 1], { min := some 7, max := some 7 }) := rfl
  have eB : minmax 5 [7, 3, 5, 9, 1] (0 + 1) 4 { min := none, max := none }
      = .ok ([7, 3, 5, 9, 1], { min := some 1, max := some 9 }) := rfl
  have hA2 := hA { min := none, max := none }
  have hB2 := hB { min := none, max := none }
  rw [eA] at hA2
  rw [eB] at hB2
  cases hA2; cases hB2
  exact h

theorem minmaxRun_returns_indep :
    ∀ (fuel : Nat) (s t : List Int) (low high : Int) (out out2 : Outs),
      0 ≤ low → low ≤ high → high < s.length → high < t.length → high ≤ 2147483647 →
      (∃ rs, minmaxRun fuel s low high out = .ok rs) →
      ∃ rt, minmaxRun fuel t low high out2 = .ok rt := by
  intro fuel
  induction fuel with
  | zero =>
    intro s t low high out out2 _ _ _ _ _ h
    obtain ⟨rs, hrs⟩ := h
    cases hrs
  | succ f ih =>
    intro s t low high out out2 h0 hle hs ht hb h
    obtain ⟨rs, hrs⟩ := h
    rcases minmaxRun_spec (f + 1) t low high out2 h0 hle ht hb with ⟨rt, hrt, _⟩ | ⟨hrt, _⟩
    · exact ⟨rt, hrt⟩
    · exfalso
      by_cases h1 : low = high
      · subst h1
        obtain ⟨v, _, hv⟩ := readAt_valid t low h0 ht
        rw [minmaxRun_single, hv] at hrt
        cases hrt
      · by_cases h2 : low = high - 1
        · obtain ⟨x, _, hx⟩ := readAt_valid t low h0 (by omega)
          obtain ⟨y, _, hy⟩ := readAt_valid t high (by omega) ht
          rw [minmaxRun_pair_ok f t low high out2 x y h2 hx hy] at hrt
          cases hrt
        · rcases le_or_lt (low + high) 2147483647 with hsum | hsum
          · obtain ⟨_, hm1, hm2⟩ := mid32_bounds low high h0 (by omega) hsum
            rcases minmaxRun_shape f s low (mid32 low high) out with
              ⟨s1, _, _, hL, hsm, _⟩ | hL | hL
            · rcases minmaxRun_shape f s1.mem (mid32 low high + 1) high
                  { min := none, max := none } with ⟨s2, _, _, hR, _, _⟩ | hR | hR
              · obtain ⟨t1, hT1⟩ := ih s t low (mid32 low high) out out2 h0 (by omega)
                  (by omega) (by omega) (by omega) ⟨s1, hL⟩
                rw [hsm] at hR
                rcases minmaxRun_shape f t low (mid32 low high) out2 with
                  ⟨t1b, mn1, mx1, hT1b, htm, ho1⟩ | hT1b | hT1b
                · obtain ⟨t2, hT2⟩ := ih s t1b.mem (mid32 low high + 1) high
                    { min := none, max := none } { min := none, max := none }
                    (by omega) (by omega) hs (by rw [htm]; exact ht) hb ⟨s2, hR⟩
                  rcases minmaxRun_shape f t1b.mem (mid32 low high + 1) high
                      { min := none, max := none } with
                    ⟨t2b, mn2, mx2, hT2b, _, ho2⟩ | hT2b | hT2b
                  · rw [minmaxRun_rec_ok f t low high out2 h1 h2 t1b t2b mn1 mx1 mn2 mx2
                      hT1b hT2b ho1 ho2] at hrt
                    cases hrt
                  · rw [hT2] at hT2b; cases hT2b
                  · rw [hT2] at hT2b; cases hT2b
                · rw [hT1] at hT1b; cases hT1b
                · rw [hT1] at hT1b; cases hT1b
              · rw [minmaxRun_rec_err2 f s low high out h1 h2 s1 _ hL hR] at hrs
                cases hrs
              · rw [minmaxRun_rec_err2 f s low high out h1 h2 s1 _ hL hR] at hrs
                cases hrs
            · rw [minmaxRun_rec_err1 f s low high out h1 h2 _ hL] at hrs; cases hrs
            · rw [minmaxRun_rec_err1 f s low high out h1 h2 _ hL] at hrs; cases hrs
          · rw [minmaxRun_overflow (f + 1) s low high out (by omega) hb (by omega)] at hrs
            cases hrs

/-- C14: if two arrays agree at every index of a range valid in both (with
`high` a value of type `int`), then `minmax` has the same outcome on both,
whatever the fuel: it returns a `(min, max)` pair on one exactly when it
returns the same pair on the other, and fails on one exactly when it fails
the same way on the other; so the result does not depend on any element
outside the range.  Both calls do return when `high ≤ 2^30 - 1` and the fuel
exceeds `high - low`. -/
theorem minmax_depends_on_range_only (fuel : Nat) (s t : List Int) (low high : Int)
    (out : Outs) (h0 : 0 ≤ low) (hle : low ≤ high) (hs : high < s.length)
    (ht : high < t.length) (hint : high ≤ INT_MAX)
    (hag : ∀ i, low ≤ i → i ≤ high → readAt s i = readAt t i) :
    (∀ o, minmax fuel s low high out = .ok (s, o) ↔
        minmax fuel t low high out = .ok (t, o)) ∧
      (∀ e, minmax fuel s low high out = .error e ↔
        minmax fuel t low high out = .error e) ∧
      (high ≤ 2 ^ 30 - 1 → (high - low).toNat < fuel →
        ∃ o, minmax fuel s low high out = .ok (s, o) ∧
          minmax fuel t low high out = .ok (t, o)) := by
  have hint2 : high ≤ 2147483647 := by
    unfold INT_MAX at hint; norm_num at hint; omega
  have hsl : slice s low high = slice t low high := slice_congr s t low high h0 hle hs hag
  have key : (∃ o, minmax fuel s low high out = .ok (s, o) ∧
        minmax fuel t low high out = .ok (t, o)) ∨
      (minmax fuel s low high out = .error .outOfFuel ∧
        minmax fuel t low high out = .error .outOfFuel) := by
    rcases minmaxRun_spec fuel s low high out h0 hle hs hint2 with ⟨rs, hrs, sps⟩ | ⟨hrs, _⟩
    · obtain ⟨rt, hrt⟩ := minmaxRun_returns_indep fuel s t low high out out h0 hle hs ht
        hint2 ⟨rs, hrs⟩
      have spt := minmaxRun_ok_spec fuel t low high out rt h0 hle ht hint2 hrt
      obtain ⟨mn, mx, a1, a2, a3⟩ := sps.out_eq
      obtain ⟨mn2, mx2, b1, b2, b3⟩ := spt.out_eq
      rw [hsl] at a1 a2
      rw [a1] at b1
      rw [a2] at b2
      cases b1; cases b2
      left
      refine ⟨{ min := some mn, max := some mx }, ?_, ?_⟩
      · rw [minmax_eq_ok fuel s low high out rs hrs, sps.mem_eq, a3]
      · rw [minmax_eq_ok fuel t low high out rt hrt, spt.mem_eq, b3]
    · rcases minmaxRun_spec fuel t low high out h0 hle ht hint2 with ⟨rt, hrt, _⟩ | ⟨hrt, _⟩
      · obtain ⟨rs, hrs2⟩ := minmaxRun_returns_indep fuel t s low high out out h0 hle ht hs
          hint2 ⟨rt, hrt⟩
        rw [hrs] at hrs2
        cases hrs2
      · right
        exact ⟨minmax_eq_error fuel s low high out _ hrs,
          minmax_eq_error fuel t low high out _ hrt⟩
  refine ⟨?_, ?_, ?_⟩
  · intro o
    rcases key with ⟨o2, k1, k2⟩ | ⟨k1, k2⟩
    · rw [k1, k2]
      constructor
      · intro h
        cases h
        rfl
      · intro h
        cases h
        rfl
    · rw [k1, k2]
      constructor <;> intro h <;> cases h
  · intro e
    rcases key with ⟨o2, k1, k2⟩ | ⟨k1, k2⟩
    · rw [k1, k2]
      constructor <;> intro h <;> cases h
    · rw [k1, k2]
  · intro hb hf
    rcases key with k | ⟨k1, _⟩
    · exact k
    · obtain ⟨mn, mx, _, _, h3⟩ := minmax_scan fuel s low high out h0 hle hs hb hf
      rw [k1] at h3
      cases h3

theorem minmax_depends_on_range_only_witness :
    ∃ o, minmax 2 [100, 4, 8, -50] 1 2 { min := none, max := none }
          = .ok ([100, 4, 8, -50], o) ∧
        minmax 2 [0, 4, 8, 0, 0] 1 2 { min := none, max := none }
          = .ok ([0, 4, 8, 0, 0], o) := by
  refine (minmax_depends_on_range_only 2 [100, 4, 8, -50] [0, 4, 8, 0, 0] 1 2
    { min := none, max := none } (by decide) (by decide) (by decide) (by decide)
    (by decide) ?_).2.2 (by decide) (by decide)
  intro i hi1 hi2
  have : i = 1 ∨ i = 2 := by omega
  rcases this with rfl | rfl <;> rfl

/-- C15: on every valid range (with `high` a value of type `int`) the pair
returned by `minmax` satisfies `min ≤ max`, and both `min` and `max` are the
value of the array at some index of `[low, high]`.  A pair is returned when
`high ≤ 2^30 - 1` and the fuel exceeds `high - low`. -/
theorem minmax_le_and_attained (fuel : Nat) (a : List Int) (low high : Int) (out : Outs)
    (h0 : 0 ≤ low) (hle : low ≤ high) (hlen : high < a.length) (hint : high ≤ INT_MAX) :
    (∀ p, minmax fuel a low high out = .ok p →
        ∃ mn mx, p = (a, { min := some mn, max := some mx }) ∧
          mn ≤ mx ∧
          (∃ i, low ≤ i ∧ i ≤ high ∧ readAt a i = .ok mn) ∧
          (∃ j, low ≤ j ∧ j ≤ high ∧ readAt a j = .ok mx)) ∧
      (high ≤ 2 ^ 30 - 1 → (high - low).toNat < fuel →
        ∃ p, minmax fuel a low high out = .ok p) := by
  have hint2 : high ≤ 2147483647 := by
    unfold INT_MAX at hint; norm_num at hint; omega
  refine ⟨?_, ?_⟩
  · intro p hp
    obtain ⟨r, hr, rfl⟩ := minmax_ok_inv fuel a low high out p hp
    have sp := minmaxRun_ok_spec fuel a low high out r h0 hle hlen hint2 hr
    obtain ⟨mn, mx, h1, h2, h3⟩ := sp.out_eq
    obtain ⟨m1, m2⟩ := scanMin_spec _ _ h1
    obtain ⟨M1, M2⟩ := scanMax_spec _ _ h2
    refine ⟨mn, mx, ?_, m2 mx M1, (mem_slice a low high mn h0 hle).1 m1,
      (mem_slice a low high mx h0 hle).1 M1⟩
    rw [sp.mem_eq, h3]
  · intro hb hf
    obtain ⟨mn, mx, _, _, h3⟩ := minmax_scan fuel a low high out h0 hle hlen hb hf
    exact ⟨_, h3⟩

theorem minmax_le_and_attained_witness :
    ∃ mn mx, minmax 3 [3, 8, 6] 0 2 { min := none, max := none }
        = .ok ([3, 8, 6], { min := some mn, max := some mx }) ∧ mn ≤ mx := by
  obtain ⟨h1, h2⟩ :=
    minmax_le_and_attained 3 [3, 8, 6] 0 2 { min := none, max := none }
      (by decide) (by decide) (by decide) (by decide)
  obtain ⟨p, hp⟩ := h2 (by decide) (by decide)
  obtain ⟨mn, mx, rfl, hle, _, _⟩ := h1 p hp
  exact ⟨mn, mx, hp, hle⟩

/-! ## Claim C17: the midpoint in 32-bit arithmetic -/

/-- C17: for every range with `0 ≤ low ≤ high ≤ 2^30 - 1` the sum `low + high`
does not exceed `2^31 - 1`, so reducing it to 32 bits leaves it unchanged and
the midpoint computed in 32-bit arithmetic equals `floor((low + high) / 2)`,
which is the midpoint used by `minmax`; this covers the range `[0, 9]` of the
driver and all its sub-ranges. -/
theorem mid32_eq_floor (low high : Int) (h0 : 0 ≤ low) (hle : low ≤ high)
    (hb : high ≤ 2 ^ 30 - 1) :
    low + high ≤ 2 ^ 31 - 1 ∧
      wrapInt32 (low + high) = low + high ∧
      mid32 low high = (low + high) / 2 ∧
      mid32 low high = mid low high ∧
      (high ≤ 9 → ∀ l h : Int, low ≤ l → l ≤ h → h ≤ high →
        wrapInt32 (l + h) = l + h ∧ mid32 l h = (l + h) / 2 ∧ mid32 l h = mid l h) := by
  have key : ∀ l h : Int, 0 ≤ l → l ≤ h → h ≤ 2 ^ 30 - 1 →
      wrapInt32 (l + h) = l + h ∧ mid32 l h = (l + h) / 2 ∧ mid32 l h = mid l h := by
    intro l h hl0 hlh hh
    have hw : wrapInt32 (l + h) = l + h := by
      unfold wrapInt32
      norm_num at hh ⊢
      omega
    refine ⟨hw, ?_, ?_⟩
    · unfold mid32
      rw [hw]
      exact Int.tdiv_eq_ediv (by omega) (by norm_num)
    · unfold mid32 mid
      rw [hw]
  obtain ⟨k1, k2, k3⟩ := key low high h0 hle hb
  refine ⟨?_, k1, k2, k3, ?_⟩
  · norm_num at hb ⊢
    omega
  · intro h9 l h hl hlh hh
    exact key l h (by omega) hlh (by norm_num; omega)

theorem mid32_eq_floor_witness :
    mid32 0 9 = 4 ∧ mid32 (2 ^ 30 - 2) (2 ^ 30 - 1) = 2 ^ 30 - 2 := by
  constructor
  · have h := (mid32_eq_floor 0 9 (by decide) (by decide) (by decide)).2.2.1
    rw [h]; decide
  · have h := (mid32_eq_floor (2 ^ 30 - 2) (2 ^ 30 - 1) (by decide) (by decide)
      (by decide)).2.2.1
    rw [h]; decide

end MinMax
